import Mathlib

/-!
# DeepDir scan engine: shallow embedding and verification

This file embeds the core of the DeepDir reconnaissance engine — the result
pipeline (`modules/intelligent_filter.py`), the recursive frontier scheduler
(`core/scanner.py`), the brute-force probe loop (`modules/brute_forcer.py`),
the statistics monitor update path (`modules/realtime_monitor.py`) and
configuration validation (`core/config.py`) — and proves or refutes the
spec's testable properties about them.

Conventions of the embedding:
* Python dict-shaped results become the `Result` structure.
* The Python `ScanConfig` dataclass becomes the `Config` structure; Python
  truthiness of a number is `≠ 0`, of a list is `≠ []`.
* Network I/O, `urljoin`-style URL construction, HTML link extraction and
  the regular-expression engine are external collaborators; they enter as
  explicit function parameters (`net`, `mkUrl`, `extract`, `rm`).
* The MD5 digest of a normalized body is modelled by the normalized
  character list itself (`content_hash`); two bodies collide exactly when
  their whitespace-stripped, case-folded forms agree, which is the
  content-equivalence relation the spec defines.
* Threading is modelled by the `threads = 1` sequential instance of the
  scheduler loop; the claims under study are universally quantified over
  scans, so a sequential run is a legitimate instance.
-/

/-- A scan result as produced by a probe source and consumed by the pipeline
(`modules/brute_forcer.py` builds this dict; `intelligent_filter.py` reads
the `url`, `status_code`, `content_length` and `content` keys). -/
structure Result where
  url : String
  status_code : Nat
  content_length : Nat
  content : String
deriving DecidableEq

/-- The configuration surface consumed by the embedded core, mirroring the
fields of `ScanConfig` in `core/config.py` that the scan path reads, plus
the declared-but-unused `max_rate`. -/
structure Config where
  urls : List String
  url_file : Option String
  brute_force : Bool
  crawling : Bool
  fuzz_patterns : Bool
  recursive : Bool
  max_depth : Nat
  recursion_status_codes : List Nat
  threads : Nat
  delay : ℚ
  random_delay_min : ℚ
  random_delay_max : ℚ
  timeout : ℚ
  max_rate : Nat
  include_status_codes : List Nat
  exclude_status_codes : List Nat
  min_response_size : Nat
  max_response_size : Nat
  exclude_sizes : List String
  exclude_text : List String
  exclude_regex : List String
  http_method : String
  follow_redirects : Bool
deriving DecidableEq

/-! ## Result pipeline (`modules/intelligent_filter.py`) -/

/-- Embeds `IntelligentFilter._format_size`: format a byte count as an
integer-truncated bytes/KB/MB token (Python `//` on non-negative ints is
`Nat` division). -/
def format_size (size : Nat) : String :=
  if size < 1024 then toString size ++ "B"
  else if size < 1024 * 1024 then toString (size / 1024) ++ "KB"
  else toString (size / (1024 * 1024)) ++ "MB"

/-- The fixed soft-404 / error-boilerplate regex table returned by
`IntelligentFilter._load_false_positive_patterns`. -/
def false_positive_patterns : List String :=
  ["404.*not.*found", "page.*not.*found", "file.*not.*found",
   "directory.*not.*found", "403.*forbidden", "access.*denied",
   "unauthorized", "permission.*denied", "server.*error",
   "internal.*server.*error", "bad.*request", "method.*not.*allowed",
   "service.*unavailable", "gateway.*timeout", "bad.*gateway"]

/-- Embeds `IntelligentFilter._is_false_positive`: the lower-cased body is matched
against every built-in pattern; the regex engine is the external parameter
`rm : pattern → text → Bool`. -/
def is_false_positive (rm : String → String → Bool) (content : String) : Bool :=
  false_positive_patterns.any (fun p => rm p content.toLower)

/-- Embeds `IntelligentFilter._is_interesting`: the acceptance filter, with
rejection tests in the source's order.  Python's `excl_text in content`
substring test is `<:+:` on the character lists; `min_response_size` and
`max_response_size` guard their bound checks behind Python truthiness
(`≠ 0`), as does the non-empty check on `include_status_codes`. -/
def is_interesting (cfg : Config) (rm : String → String → Bool) (r : Result) : Bool :=
  if cfg.include_status_codes ≠ [] ∧ r.status_code ∉ cfg.include_status_codes then false
  else if r.status_code ∈ cfg.exclude_status_codes then false
  else if cfg.min_response_size ≠ 0 ∧ r.content_length < cfg.min_response_size then false
  else if cfg.max_response_size ≠ 0 ∧ r.content_length > cfg.max_response_size then false
  else if cfg.exclude_sizes.any (fun ex => format_size r.content_length = ex) then false
  else if is_false_positive rm r.content then false
  else if cfg.exclude_text.any (fun t => decide (t.data <:+: r.content.data)) then false
  else if cfg.exclude_regex.any (fun p => rm p r.content) then false
  else true

/-- The exact-deduplication key.  The source builds the string
`f"{url}:{status_code}"`; since the decimal rendering of the status holds
no colon, that string encodes this pair injectively, so the key is
modelled as the pair itself. -/
def result_key (r : Result) : String × Nat :=
  (r.url, r.status_code)

/-- The loop body of `IntelligentFilter._remove_duplicates`: walk the
batch, keep a result only when its key is unseen, then record the key. -/
def remove_duplicates_aux (seen : List (String × Nat)) : List Result → List Result
  | [] => []
  | r :: rs =>
    if result_key r ∈ seen then remove_duplicates_aux seen rs
    else r :: remove_duplicates_aux (result_key r :: seen) rs

/-- Embeds `IntelligentFilter._remove_duplicates`: first-seen-wins dedup by
`(url, status_code)`. -/
def remove_duplicates (l : List Result) : List Result :=
  remove_duplicates_aux [] l

/-- Embeds `IntelligentFilter._calculate_content_hash`: the body is lower-cased
and all whitespace is removed (`re.sub(r"\s+", "", content.lower())`)
before digesting; the digest is modelled by the normalized text itself. -/
def content_hash (content : String) : List Char :=
  (content.data.map Char.toLower).filter (fun c => ¬c.isWhitespace)

/-- Embeds `IntelligentFilter._is_better_result`: 200 beats any non-200; among
the rest, the numerically lower status wins; equal statuses are not
better. -/
def is_better_result (n e : Result) : Bool :=
  if n.status_code = 200 ∧ e.status_code ≠ 200 then true
  else if e.status_code = 200 ∧ n.status_code ≠ 200 then false
  else decide (n.status_code < e.status_code)

/-- Look a hash key up in the response cache (Python dict read). -/
def cache_get (h : List Char) : List (List Char × Result) → Option Result
  | [] => none
  | (h', r) :: rest => if h' = h then some r else cache_get h rest

/-- Bind a hash key in the response cache (Python dict write: replaces an
existing binding, appends a fresh one). -/
def cache_set (h : List Char) (r : Result) : List (List Char × Result) → List (List Char × Result)
  | [] => [(h, r)]
  | (h', r') :: rest => if h' = h then (h, r) :: rest else (h', r') :: cache_set h r rest

/-- The in-place replacement loop inside
`IntelligentFilter._remove_similar_responses`: overwrite the **first**
retained result whose `url` equals the evicted result's `url`. -/
def replace_by_url (url : String) (newR : Result) : List Result → List Result
  | [] => []
  | r :: rs => if r.url = url then newR :: rs else r :: replace_by_url url newR rs

/-- The loop of `IntelligentFilter._remove_similar_responses`, threading
the `response_cache` dict and the `unique_results` accumulator. -/
def remove_similar_aux : List Result → List (List Char × Result) × List Result →
    List (List Char × Result) × List Result
  | [], st => st
  | r :: rs, (cache, unique) =>
    let h := content_hash r.content
    match cache_get h cache with
    | none => remove_similar_aux rs (cache_set h r cache, unique ++ [r])
    | some existing =>
      if is_better_result r existing then
        remove_similar_aux rs (cache_set h r cache, replace_by_url existing.url r unique)
      else
        remove_similar_aux rs (cache, unique)

/-- Embeds `IntelligentFilter._remove_similar_responses` on a fresh filter
instance (empty `response_cache`). -/
def remove_similar_responses (l : List Result) : List Result :=
  (remove_similar_aux l ([], [])).2

/-- The priority score of `IntelligentFilter.prioritize_results.sort_key`
(lower is better): base by status class, then a mutually exclusive
content-length adjustment. -/
def sort_key (r : Result) : Nat :=
  (if r.status_code = 200 then 0
   else if r.status_code = 301 ∨ r.status_code = 302 then 1
   else if r.status_code = 403 then 2
   else if r.status_code = 401 then 3
   else 10) +
  (if r.content_length = 0 then 5
   else if r.content_length < 100 then 2
   else if r.content_length > 1000000 then 1
   else 0)

/-- The sorting relation used by `prioritize_results`. -/
def key_le (a b : Result) : Prop :=
  sort_key a ≤ sort_key b

instance : DecidableRel key_le :=
  fun a b => inferInstanceAs (Decidable (sort_key a ≤ sort_key b))

instance : IsTotal Result key_le :=
  ⟨fun a b => Nat.le_total (sort_key a) (sort_key b)⟩

instance : IsTrans Result key_le :=
  ⟨fun _ _ _ => Nat.le_trans⟩

/-- Embeds `IntelligentFilter.prioritize_results`: Python's `sorted` is a stable
sort by key, modelled by stable insertion sort under `key_le`. -/
def prioritize_results (l : List Result) : List Result :=
  l.insertionSort key_le

/-- Embeds `IntelligentFilter.filter_results`: acceptance filter, then exact
dedup, then content collapse. -/
def filter_results (cfg : Config) (rm : String → String → Bool) (l : List Result) : List Result :=
  remove_similar_responses (remove_duplicates (l.filter (is_interesting cfg rm)))

/-! ## Frontier scheduler (`core/scanner.py`, `DeepScanner.scan_target`) -/

/-- The scheduler state threaded through the scan loop: the work queue of
`(url, depth)` pairs (`scan_queue`), the instance-level `visited_urls`
set, the accumulated results, and — for specification purposes — the trace
of dequeued targets in dequeue order. -/
structure SchedState where
  queue : List (String × Nat)
  visited : List String
  results : List Result
  trace : List (String × Nat)
deriving DecidableEq

/-- The recursion loop `for new_url in new_urls: if new_url not in
self.visited_urls: scan_queue.put_nowait((new_url, depth + 1));
self.visited_urls.add(new_url)` — the visited check and insertion happen
together with the enqueue.  `depth` is the dequeued parent's depth. -/
def enqueue_links (depth : Nat) : List String → SchedState → SchedState
  | [], st => st
  | u :: us, st =>
    if u ∈ st.visited then enqueue_links depth us st
    else enqueue_links depth us
      { st with queue := st.queue ++ [(u, depth + 1)], visited := u :: st.visited }

/-- The loop `for result in scan_results: if self._should_recurse(result):
...` — `_should_recurse` checks `status_code in recursion_status_codes`;
link extraction (`_extract_new_urls`, regex + urljoin + same-netloc
filter) is the external parameter `extract`. -/
def process_results (codes : List Nat) (extract : Result → List String) (depth : Nat) :
    List Result → SchedState → SchedState
  | [], st => st
  | r :: rs, st =>
    if r.status_code ∈ codes then
      process_results codes extract depth rs (enqueue_links depth (extract r) st)
    else
      process_results codes extract depth rs st

/-- One iteration of the `scan_target` drain loop at `threads = 1`:
dequeue the head target, probe it (`_scan_url`, abstracted as `probe`),
extend the results, and — when `recursive and depth < max_depth` — feed
each recursion-eligible result's links back through the visited-set
guard. -/
def sched_step (recursive : Bool) (max_depth : Nat) (codes : List Nat)
    (probe : String → List Result) (extract : Result → List String)
    (st : SchedState) : SchedState :=
  match st.queue with
  | [] => st
  | (url, depth) :: rest =>
    let rs := probe url
    let st1 : SchedState :=
      { queue := rest, visited := st.visited,
        results := st.results ++ rs, trace := st.trace ++ [(url, depth)] }
    if recursive = true ∧ depth < max_depth then
      process_results codes extract depth rs st1
    else st1

/-- The `while not scan_queue.empty() or futures:` drain loop, fuel-indexed
(the Python loop's termination is extrinsic; every claim below is proved
for every fuel value). -/
def sched_run (recursive : Bool) (max_depth : Nat) (codes : List Nat)
    (probe : String → List Result) (extract : Result → List String) :
    Nat → SchedState → SchedState
  | 0, st => st
  | fuel + 1, st =>
    if st.queue = [] then st
    else sched_run recursive max_depth codes probe extract fuel
      (sched_step recursive max_depth codes probe extract st)

/-- Python's `str.startswith` on the character lists. -/
def starts_with (s pre : String) : Bool :=
  pre.data.isPrefixOf s.data

/-- The target-URL normalization at the top of `scan_target`: prepend
`https://` unless the target already starts with `http://` or
`https://`. -/
def normalize_target (t : String) : String :=
  if starts_with t "http://" = true ∨ starts_with t "https://" = true then t
  else "https://" ++ t

/-- Embeds `DeepScanner.scan_target`: normalize the target, seed the queue with it
at depth 0 — note the seed is **not** inserted into `visited_urls` — and
drain. -/
def scan_target (cfg : Config) (probe : String → List Result)
    (extract : Result → List String) (fuel : Nat) (t : String) : SchedState :=
  sched_run cfg.recursive cfg.max_depth cfg.recursion_status_codes probe extract fuel
    { queue := [(normalize_target t, 0)], visited := [], results := [], trace := [] }

/-- Embeds `DeepScanner.scan_targets`: scan each target in turn and concatenate
the per-target results; an empty target list yields an empty result list
with no probing and no error. -/
def scan_targets (cfg : Config) (probe : String → List Result)
    (extract : Result → List String) (fuel : Nat) (targets : List String) :
    List Result :=
  (targets.map (fun t => (scan_target cfg probe extract fuel t).results)).flatten

/-! ## Configuration validation (`core/config.py`, `Config.validate`) -/

/-- Python truthiness of the optional `url_file` string: `None` and the
empty string are falsy. -/
def opt_str_truthy : Option String → Bool
  | none => false
  | some s => s ≠ ""

/-- Embeds `Config.validate`: fails exactly when neither `urls` nor `url_file`
is (truthily) supplied.  The scan path never calls this method. -/
def validate (cfg : Config) : Bool :=
  if cfg.urls = [] ∧ opt_str_truthy cfg.url_file = false then false else true

/-- The possible configuration errors named by the spec. -/
inductive ConfigError where
  | noTargets
deriving DecidableEq

/-- Modelled from the spec: the spec's §7 requires a `ConfigurationError`
(e.g. no targets supplied) to be "fatal, surfaced to the caller before any
scheduling begins"; no such check exists in the source's scan path
(`Config.validate` exists but has no caller), so this definition follows
the spec's words for comparison with the source's `scan_targets`. -/
def scan_targets_spec (cfg : Config) (probe : String → List Result)
    (extract : Result → List String) (fuel : Nat) (targets : List String) :
    Except ConfigError (List Result) :=
  if targets = [] then Except.error ConfigError.noTargets
  else Except.ok (scan_targets cfg probe extract fuel targets)

/-! ## Brute-force probe loop (`modules/brute_forcer.py`) and monitor -/

/-- The outcome of one HTTP request: a response (status, body) or a
`requests.exceptions.RequestException` (timeout, connection refused). -/
inductive NetOutcome where
  | ok (status : Nat) (body : String)
  | err
deriving DecidableEq

/-- The network collaborator: the session request issued by
`BruteForcer._make_request`, keyed by the configured HTTP method, the
URL, the timeout and the follow-redirects flag. -/
def RequestFn : Type :=
  String → String → ℚ → Bool → NetOutcome

/-- Embeds `BruteForcer._make_request`: issue the request; on success build the
result dict (body truncated to 1000 characters, `content_length` from the
untruncated body); on a `RequestException` catch it, log at debug level,
and return `None` — the error never escapes the single request. -/
def make_request (cfg : Config) (net : RequestFn) (url : String) : Option Result :=
  match net cfg.http_method url cfg.timeout cfg.follow_redirects with
  | NetOutcome.ok status body =>
    some { url := url, status_code := status, content_length := body.length,
           content := if body.length > 1000 then ⟨body.data.take 1000⟩ else body }
  | NetOutcome.err => none

/-- The request loop of `BruteForcer.scan`: per word build the target URL
(the `urljoin`-based construction is the external parameter `mkUrl`),
issue the request, and keep the result when one came back — a failed
request is skipped and the loop continues with the next word. -/
def brute_scan (cfg : Config) (net : RequestFn) (mkUrl : String → String)
    (words : List String) : List Result :=
  words.filterMap (fun w => make_request cfg net (mkUrl w))

/-- Embeds `BruteForcer._apply_delay`: the configured fixed delay plus — when both
`random_delay_min` and `random_delay_max` are truthy — a random sample
from the configured range (the sample is the parameter `rand`); sleep only
when the sum is positive.  Returns the slept duration. -/
def apply_delay (cfg : Config) (rand : ℚ) : ℚ :=
  let d := cfg.delay +
    (if cfg.random_delay_min ≠ 0 ∧ cfg.random_delay_max ≠ 0 then rand else 0)
  if d > 0 then d else 0

/-- The scan-statistics counters kept by `RealtimeMonitor.stats`
(`update_stats` adds numeric deltas under the monitor lock). -/
structure ScanStats where
  total_requests : Nat
  successful_requests : Nat
  failed_requests : Nat
  found_paths : Nat
deriving DecidableEq

/-- Embeds `DeepScanner._scan_url` restricted to its brute-force branch together
with its monitor updates: run the brute scan when enabled, add the number
of *returned results* to `total_requests`, filter and prioritize, and add
the number of survivors to `found_paths`.  No call in the scan path ever
updates `failed_requests` or `successful_requests`. -/
def scan_url_monitor (cfg : Config) (rm : String → String → Bool) (net : RequestFn)
    (mkUrl : String → String) (words : List String) (stats : ScanStats) :
    List Result × ScanStats :=
  let brute_results := if cfg.brute_force then brute_scan cfg net mkUrl words else []
  let stats1 :=
    if cfg.brute_force then
      { stats with total_requests := stats.total_requests + brute_results.length }
    else stats
  let filtered := prioritize_results (filter_results cfg rm brute_results)
  let stats2 := { stats1 with found_paths := stats1.found_paths + filtered.length }
  (filtered, stats2)

/-! ## Specification-side predicates for the pipeline claims -/

/-- The strict preference order the spec's Stage 3 describes: a 200 beats
any non-200, and among non-200s the numerically lower status wins.  Equal
statuses are incomparable (the tie case). -/
def beats (a b : Result) : Prop :=
  (a.status_code = 200 ∧ b.status_code ≠ 200) ∨
  (a.status_code ≠ 200 ∧ b.status_code ≠ 200 ∧ a.status_code < b.status_code)

instance (a b : Result) : Decidable (beats a b) := by
  unfold beats; infer_instance

/-- A result is the best of its content-equivalence class within `l`: it
beats every other member of its class. -/
def IsBest (l : List Result) (r : Result) : Prop :=
  ∀ r' ∈ l, content_hash r'.content = content_hash r.content → r' ≠ r → beats r r'

instance (l : List Result) (r : Result) : Decidable (IsBest l r) := by
  unfold IsBest; infer_instance

/-- All result URLs in the batch are pairwise distinct (the condition under
which the source's replace-by-url eviction step targets the intended
entry). -/
def DistinctUrls (l : List Result) : Prop :=
  (l.map Result.url).Nodup

instance (l : List Result) : Decidable (DistinctUrls l) := by
  unfold DistinctUrls; infer_instance

/-- No two distinct results of the same content-equivalence class share a
status code (the condition under which the spec's Stage 3 total order has
no ties). -/
def NoClassTies (l : List Result) : Prop :=
  ∀ r1 ∈ l, ∀ r2 ∈ l, content_hash r1.content = content_hash r2.content →
    r1.status_code = r2.status_code → r1 = r2

instance (l : List Result) : Decidable (NoClassTies l) := by
  unfold NoClassTies; infer_instance

/-- The strict-score relation used to settle order-independence of the
priority sort when all scores are distinct. -/
def key_lt (a b : Result) : Prop :=
  sort_key a < sort_key b

instance : IsAntisymm Result key_lt :=
  ⟨fun _ _ h h' => absurd h' (Nat.lt_asymm h)⟩

/-- Occurrence count of a URL across the scheduler's pending queue and its
dequeue trace. -/
def cnt (u : String) (st : SchedState) : Nat :=
  (st.queue.map Prod.fst).count u + (st.trace.map Prod.fst).count u

/-- Scheduler invariant behind the visited-once analysis, relative to the
seed URL `s`: a non-seed URL occurs at most once across queue and trace
and is in the visited set as soon as it occurs; the seed occurs at most
twice (its initial enqueue is not recorded in `visited_urls`, so one
rediscovery can re-enqueue it) and is visited once it occurs twice; the
visited set never holds duplicates. -/
structure OnceInv (s : String) (st : SchedState) : Prop where
  non_seed : ∀ u, u ≠ s → cnt u st ≤ 1
  non_seed_vis : ∀ u, u ≠ s → 1 ≤ cnt u st → u ∈ st.visited
  seed_cnt : cnt s st ≤ 2
  seed_vis : 2 ≤ cnt s st → s ∈ st.visited
  vis_nodup : st.visited.Nodup

/-- Invariant of the content-collapse loop relating the processed prefix
`p`, the `response_cache` association list and the `unique_results`
accumulator: cache keys are distinct and each binding holds a processed
result of that hash which beats every other processed member of its
class; every processed class is covered; and `unique_results` holds
exactly the cache's values, with pairwise distinct URLs. -/
structure SimInv (p : List Result) (cache : List (List Char × Result))
    (unique : List Result) : Prop where
  keys_nodup : (cache.map Prod.fst).Nodup
  hash_eq : ∀ e ∈ cache, content_hash e.2.content = e.1
  val_mem : ∀ e ∈ cache, e.2 ∈ p
  best : ∀ e ∈ cache, ∀ r' ∈ p, content_hash r'.content = e.1 → r' ≠ e.2 → beats e.2 r'
  cover : ∀ r' ∈ p, ∃ e ∈ cache, e.1 = content_hash r'.content
  uniq_iff : ∀ r, r ∈ unique ↔ r ∈ cache.map Prod.snd
  uniq_urls : (unique.map Result.url).Nodup

/-! ## Concrete fixtures used by counterexamples and witnesses -/

/-- A regex collaborator that matches nothing (no exclusion regex or
false-positive signature fires). -/
def rm0 : String → String → Bool := fun _ _ => false

/-- A baseline configuration: brute force on, no recursion, no filtering
restrictions beyond the defaults under study. -/
def cfg0 : Config :=
  { urls := [], url_file := none, brute_force := true, crawling := false,
    fuzz_patterns := false, recursive := false, max_depth := 2,
    recursion_status_codes := [200, 301, 302, 403], threads := 1, delay := 0,
    random_delay_min := 0, random_delay_max := 0, timeout := 10, max_rate := 0,
    include_status_codes := [], exclude_status_codes := [],
    min_response_size := 0, max_response_size := 0, exclude_sizes := [],
    exclude_text := [], exclude_regex := [], http_method := "GET",
    follow_redirects := false }

/-- Scenario B configuration: `exclude_status_codes = [404, 429]`. -/
def cfgB : Config := { cfg0 with exclude_status_codes := [404, 429] }

/-- Scenario E configuration: `min_response_size = 100`. -/
def cfgE : Config := { cfg0 with min_response_size := 100 }

/-- A recursive scan configuration with `max_depth = 2`. -/
def cfg1 : Config :=
  { cfg0 with recursive := true, max_depth := 2, recursion_status_codes := [200] }

/-- Scenario C configuration: recursion on, `max_depth = 1`,
`recursion_status_codes = [200, 301]`. -/
def cfg6 : Config :=
  { cfg0 with recursive := true, max_depth := 1, recursion_status_codes := [200, 301] }

/-- A probe source returning no results. -/
def probe0 : String → List Result := fun _ => []

/-- A link extractor returning no links. -/
def extract0 : Result → List String := fun _ => []

/-- A probe whose every page is a 200 at the seed URL. -/
def probe1 : String → List Result := fun _ => [⟨"https://t", 200, 5, "x"⟩]

/-- A link extractor whose every page links back to the seed URL. -/
def extract1 : Result → List String := fun _ => ["https://t"]

/-- Scenario C probe: each URL answers 200 with itself as the result URL. -/
def probe6 : String → List Result := fun u => [⟨u, 200, 5, "p"⟩]

/-- Scenario C extractor: the depth-0 page links to `/sub`; the `/sub`
page links deeper. -/
def extract6 : Result → List String := fun r =>
  if r.url = "https://t" then ["https://t/sub"] else ["https://t/sub/deeper"]

/-- A network in which the probe of `https://t/a` times out and every
other request answers 200 `hello`. -/
def net0 : RequestFn := fun _ url _ _ =>
  if url = "https://t/a" then NetOutcome.err else NetOutcome.ok 200 "hello"

/-- URL construction mapping a word `w` to `https://t/w`. -/
def mkUrl0 : String → String := fun w => "https://t/" ++ w

/-- All-zero statistics at scan start. -/
def stats0 : ScanStats := ⟨0, 0, 0, 0⟩

/-! ## Lemmas on exact deduplication -/

theorem remove_duplicates_aux_filter (k : String × Nat) :
    ∀ (l : List Result) (seen : List (String × Nat)),
      (remove_duplicates_aux seen l).filter (fun r => result_key r = k) =
        if k ∈ seen then [] else (l.find? (fun r => result_key r = k)).toList := by
  intro l
  induction l with
  | nil => intro seen; simp [remove_duplicates_aux]
  | cons r rs ih =>
    intro seen
    by_cases hk : result_key r ∈ seen
    · rw [remove_duplicates_aux, if_pos hk, ih]
      by_cases hks : k ∈ seen
      · simp [hks]
      · have hne : ¬(result_key r = k) := fun h => hks (h ▸ hk)
        simp [hks, List.find?_cons, hne]
    · rw [remove_duplicates_aux, if_neg hk, List.filter_cons, ih]
      by_cases hrk : result_key r = k
      · subst hrk
        simp [hk, List.find?_cons]
      · have hmem : k ∈ result_key r :: seen ↔ k ∈ seen := by
          constructor
          · intro h
            rcases List.mem_cons.mp h with h | h
            · exact absurd h.symm hrk
            · exact h
          · exact List.mem_cons_of_mem _
        by_cases hks : k ∈ seen <;>
          simp [hks, hmem, hrk, List.find?_cons]

theorem remove_duplicates_aux_nodup :
    ∀ (l : List Result) (seen : List (String × Nat)),
      ((remove_duplicates_aux seen l).map result_key).Nodup ∧
      ∀ r ∈ remove_duplicates_aux seen l, result_key r ∉ seen := by
  intro l
  induction l with
  | nil => intro seen; simp [remove_duplicates_aux]
  | cons r rs ih =>
    intro seen
    by_cases hk : result_key r ∈ seen
    · simpa [remove_duplicates_aux, hk] using ih seen
    · rw [remove_duplicates_aux, if_neg hk]
      obtain ⟨h1, h2⟩ := ih (result_key r :: seen)
      refine ⟨?_, ?_⟩
      · simp only [List.map_cons, List.nodup_cons]
        refine ⟨fun hmem => ?_, h1⟩
        obtain ⟨x, hx, hkx⟩ := List.mem_map.mp hmem
        exact h2 x hx (by rw [hkx]; exact List.mem_cons_self _ _)
      · intro x hx
        rcases List.mem_cons.mp hx with hx | hx
        · exact hx ▸ hk
        · exact fun hmem => h2 x hx (List.mem_cons_of_mem _ hmem)

/-- C4: results are deduplicated by the `(url, status_code)` pair with
first-seen wins — the output carries pairwise distinct keys, and for every
key the output's results with that key are exactly the first input result
carrying it (so a pair submitted twice yields exactly one result: the
first seen). -/
theorem c4_exact_dedup (l : List Result) (k : String × Nat) :
    ((remove_duplicates l).map result_key).Nodup ∧
    (remove_duplicates l).filter (fun r => result_key r = k) =
      (l.find? (fun r => result_key r = k)).toList := by
  refine ⟨(remove_duplicates_aux_nodup l []).1, ?_⟩
  simpa using remove_duplicates_aux_filter k l []

/-! ## Trace lemmas for the scheduler -/

theorem enqueue_links_trace (d : Nat) :
    ∀ (us : List String) (st : SchedState), (enqueue_links d us st).trace = st.trace := by
  intro us
  induction us with
  | nil => intro st; rfl
  | cons u us ih =>
    intro st
    rw [enqueue_links]
    split
    · exact ih st
    · exact ih _

theorem process_results_trace (codes : List Nat) (extract : Result → List String)
    (d : Nat) : ∀ (rs : List Result) (st : SchedState),
      (process_results codes extract d rs st).trace = st.trace := by
  intro rs
  induction rs with
  | nil => intro st; rfl
  | cons r rs ih =>
    intro st
    rw [process_results]
    split
    · rw [ih, enqueue_links_trace]
    · exact ih st

theorem sched_step_trace (recursive : Bool) (max_depth : Nat) (codes : List Nat)
    (probe : String → List Result) (extract : Result → List String)
    (st : SchedState) :
    ∃ e, (sched_step recursive max_depth codes probe extract st).trace = st.trace ++ e := by
  obtain ⟨q, v, res, tr⟩ := st
  rcases q with _ | ⟨⟨url, depth⟩, rest⟩
  · exact ⟨[], by simp [sched_step]⟩
  · refine ⟨[(url, depth)], ?_⟩
    show (if recursive = true ∧ depth < max_depth then
        process_results codes extract depth (probe url)
          ⟨rest, v, res ++ probe url, tr ++ [(url, depth)]⟩
      else ⟨rest, v, res ++ probe url, tr ++ [(url, depth)]⟩).trace =
      tr ++ [(url, depth)]
    split
    · rw [process_results_trace]
    · rfl

theorem sched_run_trace (recursive : Bool) (max_depth : Nat) (codes : List Nat)
    (probe : String → List Result) (extract : Result → List String) :
    ∀ (fuel : Nat) (st : SchedState), ∃ e,
      (sched_run recursive max_depth codes probe extract fuel st).trace = st.trace ++ e := by
  intro fuel
  induction fuel with
  | zero => intro st; exact ⟨[], by rw [sched_run]; simp⟩
  | succ n ih =>
    intro st
    rw [sched_run]
    split
    · exact ⟨[], by simp⟩
    · obtain ⟨e2, he2⟩ := sched_step_trace recursive max_depth codes probe extract st
      obtain ⟨e3, he3⟩ := ih (sched_step recursive max_depth codes probe extract st)
      exact ⟨e2 ++ e3, by rw [he3, he2, List.append_assoc]⟩

/-- C10: a target without an `http://` or `https://` scheme is prefixed
with `https://` before seeding, a target already carrying a scheme is used
unchanged, and the scheduler's first dequeued work item is exactly the
normalized target at depth 0, so all probing starts from the
https-prefixed URL. -/
theorem c10_target_normalization (cfg : Config) (probe : String → List Result)
    (extract : Result → List String) (fuel : Nat) (t : String) :
    (¬(starts_with t "http://" = true ∨ starts_with t "https://" = true) →
      normalize_target t = "https://" ++ t) ∧
    ((starts_with t "http://" = true ∨ starts_with t "https://" = true) →
      normalize_target t = t) ∧
    (scan_target cfg probe extract (fuel + 1) t).trace.head? =
      some (normalize_target t, 0) := by
  refine ⟨fun h => by rw [normalize_target, if_neg h],
          fun h => by rw [normalize_target, if_pos h], ?_⟩
  rw [scan_target, sched_run]
  have hne : ¬(SchedState.queue ⟨[(normalize_target t, 0)], [], [], []⟩ = []) := by
    simp
  rw [if_neg hne]
  have hstep : (sched_step cfg.recursive cfg.max_depth cfg.recursion_status_codes
      probe extract ⟨[(normalize_target t, 0)], [], [], []⟩).trace =
      [(normalize_target t, 0)] := by
    show (if cfg.recursive = true ∧ 0 < cfg.max_depth then
        process_results cfg.recursion_status_codes extract 0 (probe (normalize_target t))
          ⟨[], [], [] ++ probe (normalize_target t), [] ++ [(normalize_target t, 0)]⟩
      else ⟨[], [], [] ++ probe (normalize_target t), [] ++ [(normalize_target t, 0)]⟩).trace =
      [(normalize_target t, 0)]
    split
    · rw [process_results_trace]; rfl
    · rfl
  obtain ⟨e, he⟩ := sched_run_trace cfg.recursive cfg.max_depth
    cfg.recursion_status_codes probe extract fuel
    (sched_step cfg.recursive cfg.max_depth cfg.recursion_status_codes probe extract
      ⟨[(normalize_target t, 0)], [], [], []⟩)
  rw [he, hstep]
  rfl

/-- C10 witness: a bare host gets the `https://` prefix; a target with an
explicit `http://` scheme is kept as is; the seed dequeued first is the
normalized URL. -/
theorem c10_target_normalization_witness :
    normalize_target "example.com" = "https://" ++ "example.com" ∧
    normalize_target "http://x" = "http://x" ∧
    (scan_target cfg0 probe0 extract0 3 "example.com").trace.head? =
      some (normalize_target "example.com", 0) :=
  ⟨(c10_target_normalization cfg0 probe0 extract0 0 "example.com").1 (by decide),
   (c10_target_normalization cfg0 probe0 extract0 0 "http://x").2.1 (by decide),
   (c10_target_normalization cfg0 probe0 extract0 2 "example.com").2.2⟩

/-- C9: `max_rate` never influences scanning — two configurations that
differ only in `max_rate` produce the same per-request delay, accept the
same results, issue the same brute-force request sequence, compute the
same statistics, and drive the scheduler through identical states, for
every input.  The field is declared in `ScanConfig` but read nowhere in
the scan path. -/
theorem c9_max_rate_unused (cfg : Config) (n : Nat) (rand : ℚ)
    (rm : String → String → Bool) (net : RequestFn) (mkUrl : String → String)
    (words : List String) (stats : ScanStats) (l : List Result) (r : Result)
    (probe : String → List Result) (extract : Result → List String)
    (fuel : Nat) (t : String) (targets : List String) :
    apply_delay { cfg with max_rate := n } rand = apply_delay cfg rand ∧
    is_interesting { cfg with max_rate := n } rm r = is_interesting cfg rm r ∧
    filter_results { cfg with max_rate := n } rm l = filter_results cfg rm l ∧
    brute_scan { cfg with max_rate := n } net mkUrl words =
      brute_scan cfg net mkUrl words ∧
    scan_url_monitor { cfg with max_rate := n } rm net mkUrl words stats =
      scan_url_monitor cfg rm net mkUrl words stats ∧
    scan_target { cfg with max_rate := n } probe extract fuel t =
      scan_target cfg probe extract fuel t ∧
    scan_targets { cfg with max_rate := n } probe extract fuel targets =
      scan_targets cfg probe extract fuel targets := by
  cases cfg
  exact ⟨rfl, rfl, rfl, rfl, rfl, rfl, rfl⟩

/-- C8 counterexample: with no targets supplied, the source's
`scan_targets` does not fail — it returns the empty result list normally
(probing nothing), whereas the claim requires a configuration error to be
surfaced before scheduling, as the spec-modelled variant does; the unused
`Config.validate` would indeed have reported the configuration invalid. -/
theorem c8_counterexample :
    scan_targets cfg0 probe0 extract0 3 [] = [] ∧
    scan_targets_spec cfg0 probe0 extract0 3 [] =
      Except.error ConfigError.noTargets ∧
    validate cfg0 = false :=
  ⟨rfl, rfl, by decide⟩

/-- C8 amended: `Config.validate` returns `false` exactly when neither
`urls` nor `url_file` is truthily supplied, but the scan path never calls
it: `scan_targets` on an empty target list probes no target and returns
an empty result list normally, surfacing no error. -/
theorem c8_no_empty_target_error (cfg : Config) (probe : String → List Result)
    (extract : Result → List String) (fuel : Nat) :
    scan_targets cfg probe extract fuel [] = [] ∧
    (validate cfg = false ↔
      (cfg.urls = [] ∧ opt_str_truthy cfg.url_file = false)) := by
  refine ⟨rfl, ?_⟩
  rw [validate]
  split <;> simp_all

/-- C7 amended: a probe-level network error is caught at the single
request (`_make_request` returns no result), the remaining requests of
the target still run and the scan is not aborted — but no statistic
counts the failure: the monitor's `failed_requests` (and
`successful_requests`) counters are left untouched by the scan path. -/
theorem c7_network_error_counters (cfg : Config) (net : RequestFn)
    (mkUrl : String → String) (rm : String → String → Bool) (w : String)
    (ws words : List String) (stats : ScanStats)
    (h : net cfg.http_method (mkUrl w) cfg.timeout cfg.follow_redirects =
      NetOutcome.err) :
    make_request cfg net (mkUrl w) = none ∧
    brute_scan cfg net mkUrl (w :: ws) = brute_scan cfg net mkUrl ws ∧
    (scan_url_monitor cfg rm net mkUrl words stats).2.failed_requests =
      stats.failed_requests ∧
    (scan_url_monitor cfg rm net mkUrl words stats).2.successful_requests =
      stats.successful_requests := by
  have hm : make_request cfg net (mkUrl w) = none := by
    rw [make_request, h]
  refine ⟨hm, ?_, ?_, ?_⟩
  · rw [brute_scan, brute_scan, List.filterMap_cons, hm]
  · rw [scan_url_monitor]
    dsimp only
    split <;> rfl
  · rw [scan_url_monitor]
    dsimp only
    split <;> rfl

/-- C7 witness: in a scan of the two words `a`, `b` where the probe of
`https://t/a` times out, the failed request yields no result, the scan
continues with `b`, and the failure counters stay zero. -/
theorem c7_network_error_counters_witness :
    make_request cfg0 net0 "https://t/a" = none ∧
    brute_scan cfg0 net0 mkUrl0 ["a", "b"] = brute_scan cfg0 net0 mkUrl0 ["b"] ∧
    (scan_url_monitor cfg0 rm0 net0 mkUrl0 ["a", "b"] stats0).2.failed_requests = 0 := by
  obtain ⟨h1, h2, h3, h4⟩ :=
    c7_network_error_counters cfg0 net0 mkUrl0 rm0 "a" ["b"] ["a", "b"] stats0 (by decide)
  exact ⟨h1, h2, h3⟩

/-- C7 counterexample: the claim's "counted as failed in the scan
statistics" is false — a scan in which the probe of `https://t/a` fails
with a network error finishes with `failed_requests` still `0` while the
probe of `https://t/b` still produced its result (the scan was not
aborted). -/
theorem c7_failed_counter_counterexample :
    net0 cfg0.http_method (mkUrl0 "a") cfg0.timeout cfg0.follow_redirects =
      NetOutcome.err ∧
    (scan_url_monitor cfg0 rm0 net0 mkUrl0 ["a", "b"] stats0).2.failed_requests = 0 ∧
    (scan_url_monitor cfg0 rm0 net0 mkUrl0 ["a", "b"] stats0).1 =
      [⟨"https://t/b", 200, 5, "hello"⟩] := by
  decide

/-! ## Scheduler step reduction lemmas -/

theorem sched_step_nil (recursive : Bool) (maxd : Nat) (codes : List Nat)
    (probe : String → List Result) (extract : Result → List String)
    (v : List String) (res : List Result) (tr : List (String × Nat)) :
    sched_step recursive maxd codes probe extract ⟨[], v, res, tr⟩ = ⟨[], v, res, tr⟩ :=
  rfl

theorem sched_step_cons (recursive : Bool) (maxd : Nat) (codes : List Nat)
    (probe : String → List Result) (extract : Result → List String)
    (url : String) (depth : Nat) (rest : List (String × Nat))
    (v : List String) (res : List Result) (tr : List (String × Nat)) :
    sched_step recursive maxd codes probe extract ⟨(url, depth) :: rest, v, res, tr⟩ =
      (if recursive = true ∧ depth < maxd then
        process_results codes extract depth (probe url)
          ⟨rest, v, res ++ probe url, tr ++ [(url, depth)]⟩
      else ⟨rest, v, res ++ probe url, tr ++ [(url, depth)]⟩) :=
  rfl

/-! ## Depth-bound invariant (C6) -/

theorem enqueue_links_queue_depth (maxd d : Nat) (hd : d < maxd) :
    ∀ (us : List String) (st : SchedState),
      (∀ e ∈ st.queue, e.2 ≤ maxd) →
      ∀ e ∈ (enqueue_links d us st).queue, e.2 ≤ maxd := by
  intro us
  induction us with
  | nil => intro st h; exact h
  | cons u us ih =>
    intro st h
    rw [enqueue_links]
    split
    · exact ih st h
    · refine ih _ ?_
      intro e he
      rcases List.mem_append.mp he with he | he
      · exact h e he
      · rcases List.mem_singleton.mp he with rfl
        exact hd

theorem process_results_queue_depth (codes : List Nat)
    (extract : Result → List String) (maxd d : Nat) (hd : d < maxd) :
    ∀ (rs : List Result) (st : SchedState),
      (∀ e ∈ st.queue, e.2 ≤ maxd) →
      ∀ e ∈ (process_results codes extract d rs st).queue, e.2 ≤ maxd := by
  intro rs
  induction rs with
  | nil => intro st h; exact h
  | cons r rs ih =>
    intro st h
    rw [process_results]
    split
    · exact ih _ (enqueue_links_queue_depth maxd d hd _ st h)
    · exact ih st h

theorem sched_step_depth (recursive : Bool) (maxd : Nat) (codes : List Nat)
    (probe : String → List Result) (extract : Result → List String)
    (st : SchedState)
    (hq : ∀ e ∈ st.queue, e.2 ≤ maxd) (ht : ∀ e ∈ st.trace, e.2 ≤ maxd) :
    (∀ e ∈ (sched_step recursive maxd codes probe extract st).queue, e.2 ≤ maxd) ∧
    (∀ e ∈ (sched_step recursive maxd codes probe extract st).trace, e.2 ≤ maxd) := by
  obtain ⟨q, v, res, tr⟩ := st
  rcases q with _ | ⟨⟨url, depth⟩, rest⟩
  · rw [sched_step_nil]
    exact ⟨hq, ht⟩
  · have hqd : depth ≤ maxd := hq (url, depth) (List.mem_cons_self _ _)
    have hrest : ∀ e ∈ rest, e.2 ≤ maxd := fun e he => hq e (List.mem_cons_of_mem _ he)
    have htr : ∀ e ∈ tr ++ [(url, depth)], e.2 ≤ maxd := by
      intro e he
      rcases List.mem_append.mp he with he | he
      · exact ht e he
      · rcases List.mem_singleton.mp he with rfl
        exact hqd
    rw [sched_step_cons]
    split
    · next hc =>
      constructor
      · exact process_results_queue_depth codes extract maxd depth hc.2 _ _ hrest
      · intro e he
        rw [process_results_trace] at he
        exact htr e he
    · exact ⟨hrest, htr⟩

theorem sched_run_depth (recursive : Bool) (maxd : Nat) (codes : List Nat)
    (probe : String → List Result) (extract : Result → List String) :
    ∀ (fuel : Nat) (st : SchedState),
      (∀ e ∈ st.queue, e.2 ≤ maxd) → (∀ e ∈ st.trace, e.2 ≤ maxd) →
      ∀ e ∈ (sched_run recursive maxd codes probe extract fuel st).trace, e.2 ≤ maxd := by
  intro fuel
  induction fuel with
  | zero => intro st hq ht; rw [sched_run]; exact ht
  | succ n ih =>
    intro st hq ht
    rw [sched_run]
    split
    · exact ht
    · obtain ⟨hq', ht'⟩ := sched_step_depth recursive maxd codes probe extract st hq ht
      exact ih _ hq' ht'

/-- C6: in every recursive scan no target of depth greater than
`max_depth` is ever processed — every dequeued `(url, depth)` pair in the
scheduler trace satisfies `depth ≤ max_depth`, because links are enqueued
at `depth + 1` only from a target whose depth is strictly below the
bound. -/
theorem c6_depth_bound (cfg : Config) (probe : String → List Result)
    (extract : Result → List String) (fuel : Nat) (t u : String) (d : Nat)
    (h : (u, d) ∈ (scan_target cfg probe extract fuel t).trace) :
    d ≤ cfg.max_depth := by
  have hq : ∀ e ∈ ([(normalize_target t, 0)] : List (String × Nat)), e.2 ≤ cfg.max_depth := by
    intro e he
    rcases List.mem_singleton.mp he with rfl
    exact Nat.zero_le _
  have ht : ∀ e ∈ ([] : List (String × Nat)), e.2 ≤ cfg.max_depth := by
    intro e he
    cases he
  exact sched_run_depth cfg.recursive cfg.max_depth cfg.recursion_status_codes
    probe extract fuel ⟨[(normalize_target t, 0)], [], [], []⟩ hq ht (u, d) h

/-- C6 witness (Scenario C): with `max_depth = 1` and
`recursion_status_codes = [200, 301]`, the in-scope link `/sub` found on
the depth-0 page is scheduled at depth 1 and the link found on the
depth-1 page is never scheduled; the bound instantiates to `1 ≤ 1`. -/
theorem c6_depth_bound_witness :
    (scan_target cfg6 probe6 extract6 5 "t").trace =
      [("https://t", 0), ("https://t/sub", 1)] ∧
    (1 : Nat) ≤ cfg6.max_depth :=
  ⟨by decide,
   c6_depth_bound cfg6 probe6 extract6 5 "t" "https://t/sub" 1 (by decide)⟩

/-! ## Visited-once invariant (C1) -/

theorem cnt_fields (v : String) (q : List (String × Nat)) (vis : List String)
    (res : List Result) (tr : List (String × Nat)) :
    cnt v ⟨q, vis, res, tr⟩ = (q.map Prod.fst).count v + (tr.map Prod.fst).count v :=
  rfl

theorem cnt_push (v u : String) (d : Nat) (q : List (String × Nat))
    (vis vis' : List String) (res res' : List Result) (tr : List (String × Nat)) :
    cnt v ⟨q ++ [(u, d)], vis, res, tr⟩ =
      cnt v ⟨q, vis', res', tr⟩ + (if u = v then 1 else 0) := by
  rw [cnt_fields, cnt_fields, List.map_append, List.count_append]
  simp only [List.map_cons, List.map_nil, List.count_cons, List.count_nil]
  by_cases h : u = v <;> (simp [h]; try omega)

theorem onceinv_congr (s : String) (st st' : SchedState)
    (hc : ∀ v, cnt v st' = cnt v st) (hv : st'.visited = st.visited)
    (h : OnceInv s st) : OnceInv s st' := by
  obtain ⟨h1, h2, h3, h4, h5⟩ := h
  exact ⟨fun u hu => (hc u) ▸ h1 u hu,
         fun u hu hl => hv ▸ h2 u hu ((hc u) ▸ hl),
         (hc s) ▸ h3,
         fun hl => hv ▸ h4 ((hc s) ▸ hl),
         hv ▸ h5⟩

theorem onceinv_push (s u : String) (d : Nat) (q : List (String × Nat))
    (vis : List String) (res : List Result) (tr : List (String × Nat))
    (hinv : OnceInv s ⟨q, vis, res, tr⟩) (hu : u ∉ vis) :
    OnceInv s ⟨q ++ [(u, d)], u :: vis, res, tr⟩ := by
  obtain ⟨h1, h2, h3, h4, h5⟩ := hinv
  constructor
  · intro v hv
    rw [cnt_push v u d q (u :: vis) vis res res tr]
    by_cases hvu : u = v
    · subst hvu
      have hz : ¬(1 ≤ cnt u ⟨q, vis, res, tr⟩) := fun hl => hu (h2 u hv hl)
      rw [if_pos rfl]
      omega
    · have := h1 v hv
      simp only [if_neg hvu]
      omega
  · intro v hv hl
    rw [cnt_push v u d q (u :: vis) vis res res tr] at hl
    by_cases hvu : u = v
    · exact hvu ▸ List.mem_cons_self _ _
    · refine List.mem_cons_of_mem _ (h2 v hv ?_)
      rw [if_neg hvu] at hl
      omega
  · rw [cnt_push s u d q (u :: vis) vis res res tr]
    by_cases hus : u = s
    · subst hus
      have hz : ¬(2 ≤ cnt u ⟨q, vis, res, tr⟩) := fun hl => hu (h4 hl)
      rw [if_pos rfl]
      omega
    · rw [if_neg hus]
      omega
  · intro hl
    rw [cnt_push s u d q (u :: vis) vis res res tr] at hl
    by_cases hus : u = s
    · exact hus ▸ List.mem_cons_self _ _
    · refine List.mem_cons_of_mem _ (h4 ?_)
      rw [if_neg hus] at hl
      omega
  · exact List.nodup_cons.mpr ⟨hu, h5⟩

theorem enqueue_links_once (s : String) (d : Nat) :
    ∀ (us : List String) (st : SchedState),
      OnceInv s st → OnceInv s (enqueue_links d us st) := by
  intro us
  induction us with
  | nil => intro st h; exact h
  | cons u us ih =>
    intro st h
    rw [enqueue_links]
    split
    · exact ih st h
    · next hu =>
      obtain ⟨q, v, res, tr⟩ := st
      exact ih _ (onceinv_push s u (d + 1) q v res tr h hu)

theorem process_results_once (codes : List Nat) (extract : Result → List String)
    (s : String) (d : Nat) :
    ∀ (rs : List Result) (st : SchedState),
      OnceInv s st → OnceInv s (process_results codes extract d rs st) := by
  intro rs
  induction rs with
  | nil => intro st h; exact h
  | cons r rs ih =>
    intro st h
    rw [process_results]
    split
    · exact ih _ (enqueue_links_once s d _ st h)
    · exact ih st h

theorem sched_step_once (recursive : Bool) (maxd : Nat) (codes : List Nat)
    (probe : String → List Result) (extract : Result → List String)
    (s : String) (st : SchedState) (h : OnceInv s st) :
    OnceInv s (sched_step recursive maxd codes probe extract st) := by
  obtain ⟨q, v, res, tr⟩ := st
  rcases q with _ | ⟨⟨url, depth⟩, rest⟩
  · rwa [sched_step_nil]
  · have hmid : OnceInv s ⟨rest, v, res ++ probe url, tr ++ [(url, depth)]⟩ := by
      refine onceinv_congr s ⟨(url, depth) :: rest, v, res, tr⟩
        ⟨rest, v, res ++ probe url, tr ++ [(url, depth)]⟩ (fun w => ?_) rfl h
      rw [cnt_fields, cnt_fields, List.map_append, List.count_append]
      simp only [List.map_cons, List.count_cons, List.map_nil, List.count_nil]
      omega
    rw [sched_step_cons]
    split
    · exact process_results_once codes extract s depth _ _ hmid
    · exact hmid

theorem sched_run_once (recursive : Bool) (maxd : Nat) (codes : List Nat)
    (probe : String → List Result) (extract : Result → List String) (s : String) :
    ∀ (fuel : Nat) (st : SchedState),
      OnceInv s st →
      OnceInv s (sched_run recursive maxd codes probe extract fuel st) := by
  intro fuel
  induction fuel with
  | zero => intro st h; rw [sched_run]; exact h
  | succ n ih =>
    intro st h
    rw [sched_run]
    split
    · exact h
    · exact ih _ (sched_step_once recursive maxd codes probe extract s st h)

/-- C1 counterexample: a URL can be dequeued and processed twice — when a
depth-0 page links back to the seed target itself, the seed (which was
never added to `visited_urls` when it was enqueued) passes the visited
check and is scheduled a second time, so the dequeue trace repeats the
URL. -/
theorem c1_visited_once_counterexample :
    ¬(((scan_target cfg1 probe1 extract1 5 "t").trace.map Prod.fst).Nodup) := by
  decide

/-- C1 amended: every recursion-discovered link is added to the visited
set at most once, atomically with its enqueue, so any URL other than the
seed target is dequeued at most once; the seed itself is not pre-added to
`visited_urls`, so it can be scheduled at most one extra time (at most two
dequeues), and the visited set never holds duplicates. -/
theorem c1_visited_once (cfg : Config) (probe : String → List Result)
    (extract : Result → List String) (fuel : Nat) (t u : String)
    (hu : u ≠ normalize_target t) :
    ((scan_target cfg probe extract fuel t).trace.map Prod.fst).count u ≤ 1 ∧
    ((scan_target cfg probe extract fuel t).trace.map Prod.fst).count
      (normalize_target t) ≤ 2 ∧
    (scan_target cfg probe extract fuel t).visited.Nodup := by
  have hs : ∀ v : String, cnt v ⟨[(normalize_target t, 0)], [], [], []⟩ =
      if v = normalize_target t then 1 else 0 := by
    intro v
    rw [cnt_fields]
    by_cases hv : v = normalize_target t
    · simp [List.count_cons, hv]
    · simp [List.count_cons, hv, Ne.symm hv]
  have hinit : OnceInv (normalize_target t)
      ⟨[(normalize_target t, 0)], [], [], []⟩ := by
    constructor
    · intro v hv
      rw [hs]
      split <;> omega
    · intro v hv hl
      rw [hs, if_neg hv] at hl
      omega
    · rw [hs]
      split <;> omega
    · intro hl
      rw [hs, if_pos rfl] at hl
      omega
    · exact List.nodup_nil
  have hfin := sched_run_once cfg.recursive cfg.max_depth cfg.recursion_status_codes
    probe extract (normalize_target t) fuel _ hinit
  obtain ⟨h1, h2, h3, h4, h5⟩ := hfin
  refine ⟨?_, ?_, h5⟩
  · have hc := h1 u hu
    rw [cnt] at hc
    rw [scan_target]
    omega
  · have hc := h3
    rw [cnt] at hc
    rw [scan_target]
    omega

/-- C1 witness: in the self-linking run used for the counterexample, a URL
different from the seed is dequeued at most once and the seed at most
twice. -/
theorem c1_visited_once_witness :
    ((scan_target cfg1 probe1 extract1 5 "t").trace.map Prod.fst).count "https://u" ≤ 1 ∧
    ((scan_target cfg1 probe1 extract1 5 "t").trace.map Prod.fst).count
      (normalize_target "t") ≤ 2 := by
  have h := c1_visited_once cfg1 probe1 extract1 5 "t" "https://u" (by decide)
  exact ⟨h.1, h.2.1⟩

/-! ## Acceptance filter characterization (C5) -/

theorem mem_replace_by_url (u0 : String) (nr : Result) :
    ∀ (l : List Result) (x : Result), x ∈ replace_by_url u0 nr l → x = nr ∨ x ∈ l := by
  intro l
  induction l with
  | nil => intro x hx; cases hx
  | cons r rs ih =>
    intro x hx
    rw [replace_by_url] at hx
    split at hx
    · rcases List.mem_cons.mp hx with h | h
      · exact Or.inl h
      · exact Or.inr (List.mem_cons_of_mem _ h)
    · rcases List.mem_cons.mp hx with h | h
      · exact Or.inr (h ▸ List.mem_cons_self _ _)
      · rcases ih x h with h' | h'
        · exact Or.inl h'
        · exact Or.inr (List.mem_cons_of_mem _ h')

theorem mem_remove_similar_aux :
    ∀ (rest : List Result) (cache : List (List Char × Result)) (unique : List Result)
      (x : Result), x ∈ (remove_similar_aux rest (cache, unique)).2 →
        x ∈ unique ∨ x ∈ rest := by
  intro rest
  induction rest with
  | nil => intro cache unique x hx; exact Or.inl hx
  | cons r rs ih =>
    intro cache unique x hx
    rw [remove_similar_aux] at hx
    split at hx
    · rcases ih _ _ _ hx with h | h
      · rcases List.mem_append.mp h with h | h
        · exact Or.inl h
        · exact Or.inr (List.mem_singleton.mp h ▸ List.mem_cons_self _ _)
      · exact Or.inr (List.mem_cons_of_mem _ h)
    · split at hx
      · rcases ih _ _ _ hx with h | h
        · rcases mem_replace_by_url _ _ _ _ h with h' | h'
          · exact Or.inr (h' ▸ List.mem_cons_self _ _)
          · exact Or.inl h'
        · exact Or.inr (List.mem_cons_of_mem _ h)
      · rcases ih _ _ _ hx with h | h
        · exact Or.inl h
        · exact Or.inr (List.mem_cons_of_mem _ h)

theorem mem_remove_duplicates_aux :
    ∀ (l : List Result) (seen : List (String × Nat)) (x : Result),
      x ∈ remove_duplicates_aux seen l → x ∈ l := by
  intro l
  induction l with
  | nil => intro seen x hx; cases hx
  | cons r rs ih =>
    intro seen x hx
    rw [remove_duplicates_aux] at hx
    split at hx
    · exact List.mem_cons_of_mem _ (ih _ _ hx)
    · rcases List.mem_cons.mp hx with h | h
      · exact h ▸ List.mem_cons_self _ _
      · exact List.mem_cons_of_mem _ (ih _ _ h)

theorem filter_results_interesting (cfg : Config) (rm : String → String → Bool)
    (l : List Result) (r : Result) (h : r ∈ filter_results cfg rm l) :
    is_interesting cfg rm r = true := by
  rw [filter_results, remove_similar_responses] at h
  rcases mem_remove_similar_aux _ _ _ _ h with h | h
  · cases h
  · have h2 := mem_remove_duplicates_aux _ _ _ h
    exact (List.mem_filter.mp h2).2

/-- C5: a classified result is rejected by the acceptance filter exactly
when one of the configured criteria fires — status outside a non-empty
include-set or inside the exclude-set, content length under a truthy
minimum or over a truthy maximum, formatted size token excluded, body
matching a built-in false-positive signature, body containing an excluded
literal substring, or body matching an excluded regex — and the result
pipeline only ever outputs results the filter accepts, so any rejected
result is absent from the output. -/
theorem c5_acceptance_filter (cfg : Config) (rm : String → String → Bool)
    (r : Result) (l : List Result) :
    (is_interesting cfg rm r = false ↔
      ((cfg.include_status_codes ≠ [] ∧ r.status_code ∉ cfg.include_status_codes) ∨
       r.status_code ∈ cfg.exclude_status_codes ∨
       (cfg.min_response_size ≠ 0 ∧ r.content_length < cfg.min_response_size) ∨
       (cfg.max_response_size ≠ 0 ∧ r.content_length > cfg.max_response_size) ∨
       (∃ ex ∈ cfg.exclude_sizes, format_size r.content_length = ex) ∨
       is_false_positive rm r.content = true ∨
       (∃ tx ∈ cfg.exclude_text, tx.data <:+: r.content.data) ∨
       (∃ p ∈ cfg.exclude_regex, rm p r.content = true))) ∧
    (r ∈ filter_results cfg rm l → is_interesting cfg rm r = true) := by
  refine ⟨?_, filter_results_interesting cfg rm l r⟩
  rw [is_interesting]
  split_ifs with h1 h2 h3 h4 h5 h6 h7 h8
  · exact iff_of_true rfl (Or.inl h1)
  · exact iff_of_true rfl (Or.inr (Or.inl h2))
  · exact iff_of_true rfl (Or.inr (Or.inr (Or.inl h3)))
  · exact iff_of_true rfl (Or.inr (Or.inr (Or.inr (Or.inl h4))))
  · refine iff_of_true rfl (Or.inr (Or.inr (Or.inr (Or.inr (Or.inl ?_)))))
    simpa using h5
  · exact iff_of_true rfl
      (Or.inr (Or.inr (Or.inr (Or.inr (Or.inr (Or.inl h6))))))
  · refine iff_of_true rfl
      (Or.inr (Or.inr (Or.inr (Or.inr (Or.inr (Or.inr (Or.inl ?_)))))))
    simpa using h7
  · refine iff_of_true rfl
      (Or.inr (Or.inr (Or.inr (Or.inr (Or.inr (Or.inr (Or.inr ?_)))))))
    simpa using h8
  · refine iff_of_false (by simp) ?_
    intro hD
    rcases hD with h | h | h | h | h | h | h | h
    · exact h1 h
    · exact h2 h
    · exact h3 h
    · exact h4 h
    · exact h5 (by simpa using h)
    · exact h6 h
    · exact h7 (by simpa using h)
    · exact h8 (by simpa using h)

/-- C5 witness (Scenarios B and E): with `exclude_status_codes =
[404, 429]` a 404 result is rejected and absent from the pipeline output;
with `min_response_size = 100` a result of content length 10 is
rejected. -/
theorem c5_acceptance_filter_witness :
    is_interesting cfgB rm0 ⟨"https://t/x", 404, 500, "c"⟩ = false ∧
    is_interesting cfgE rm0 ⟨"https://t/y", 200, 10, "c"⟩ = false ∧
    (⟨"https://t/x", 404, 500, "c"⟩ : Result) ∉
      filter_results cfgB rm0 [⟨"https://t/x", 404, 500, "c"⟩] := by
  have h1 := (c5_acceptance_filter cfgB rm0 ⟨"https://t/x", 404, 500, "c"⟩ []).1.mpr
    (Or.inr (Or.inl (by decide)))
  have h2 := (c5_acceptance_filter cfgE rm0 ⟨"https://t/y", 200, 10, "c"⟩ []).1.mpr
    (Or.inr (Or.inr (Or.inl (by decide))))
  refine ⟨h1, h2, fun hmem => ?_⟩
  have h3 := (c5_acceptance_filter cfgB rm0 ⟨"https://t/x", 404, 500, "c"⟩
    [⟨"https://t/x", 404, 500, "c"⟩]).2 hmem
  rw [h1] at h3
  cases h3

/-! ## Priority sort (C3) -/

theorem prioritize_results_sorted (l : List Result) :
    (prioritize_results l).Sorted key_le :=
  List.sorted_insertionSort key_le l

theorem prioritize_results_perm (l : List Result) :
    (prioritize_results l).Perm l :=
  List.perm_insertionSort key_le l

theorem prioritize_results_stable (l : List Result) (s : Nat) :
    (prioritize_results l).filter (fun x => sort_key x = s) =
      l.filter (fun x => sort_key x = s) := by
  rw [prioritize_results]
  have hBP : (l.filter (fun x => sort_key x = s)).Pairwise key_le := by
    refine List.pairwise_of_forall_mem_list (fun a ha b hb => ?_)
    have hka : sort_key a = s := of_decide_eq_true (List.mem_filter.mp ha).2
    have hkb : sort_key b = s := of_decide_eq_true (List.mem_filter.mp hb).2
    rw [key_le, hka, hkb]
  have hBsort : List.Sublist (l.filter (fun x => sort_key x = s))
      (l.insertionSort key_le) :=
    List.sublist_insertionSort hBP (List.filter_sublist l)
  have hfil := hBsort.filter (fun x => decide (sort_key x = s))
  have hBB : (l.filter (fun x => sort_key x = s)).filter
      (fun x => decide (sort_key x = s)) = l.filter (fun x => sort_key x = s) :=
    List.filter_eq_self.mpr (fun a ha => (List.mem_filter.mp ha).2)
  rw [hBB] at hfil
  have hlen : ((l.insertionSort key_le).filter
      (fun x => decide (sort_key x = s))).length =
      (l.filter (fun x => sort_key x = s)).length :=
    ((List.perm_insertionSort key_le l).filter
      (fun x => decide (sort_key x = s))).length_eq
  exact (hfil.eq_of_length hlen.symm).symm

theorem prioritize_results_deterministic (l l' : List Result) (hp : l.Perm l')
    (hnd : (l.map sort_key).Nodup) :
    prioritize_results l = prioritize_results l' := by
  have hsym : ∀ {a b : Result}, sort_key a ≠ sort_key b → sort_key b ≠ sort_key a :=
    fun h => Ne.symm h
  have hpair : l.Pairwise (fun a b => sort_key a ≠ sort_key b) :=
    (List.pairwise_map).mp hnd
  have hpair' : l'.Pairwise (fun a b => sort_key a ≠ sort_key b) :=
    (hp.pairwise_iff hsym).mp hpair
  have hq : (prioritize_results l).Perm l := prioritize_results_perm l
  have hq' : (prioritize_results l').Perm l' := prioritize_results_perm l'
  have hpair1 : (prioritize_results l).Pairwise (fun a b => sort_key a ≠ sort_key b) :=
    (hq.pairwise_iff hsym).mpr hpair
  have hpair1' : (prioritize_results l').Pairwise
      (fun a b => sort_key a ≠ sort_key b) :=
    (hq'.pairwise_iff hsym).mpr hpair'
  have hlt : (prioritize_results l).Pairwise key_lt :=
    (List.Pairwise.and (prioritize_results_sorted l) hpair1).imp
      (fun hab => lt_of_le_of_ne hab.1 hab.2)
  have hlt' : (prioritize_results l').Pairwise key_lt :=
    (List.Pairwise.and (prioritize_results_sorted l') hpair1').imp
      (fun hab => lt_of_le_of_ne hab.1 hab.2)
  exact List.eq_of_perm_of_sorted (hq.trans (hp.trans hq'.symm)) hlt hlt'

/-- C3 counterexample: the claim's "reordering the input submission never
changes the final sorted sequence" is false — two distinct results with
equal priority score appear in input order (the sort is stable), so the
two submission orders produce different output sequences. -/
theorem c3_priority_sort_counterexample :
    prioritize_results [⟨"u1", 200, 50, "x"⟩, ⟨"u2", 200, 50, "y"⟩] =
      [⟨"u1", 200, 50, "x"⟩, ⟨"u2", 200, 50, "y"⟩] ∧
    prioritize_results [⟨"u2", 200, 50, "y"⟩, ⟨"u1", 200, 50, "x"⟩] =
      [⟨"u2", 200, 50, "y"⟩, ⟨"u1", 200, 50, "x"⟩] ∧
    sort_key ⟨"u1", 200, 50, "x"⟩ = sort_key ⟨"u2", 200, 50, "y"⟩ ∧
    (⟨"u1", 200, 50, "x"⟩ : Result) ≠ ⟨"u2", 200, 50, "y"⟩ := by
  decide

/-- C3 amended: prioritization stably sorts ascending by the score (base 0
for 200, 1 for 301/302, 2 for 403, 3 for 401, 10 otherwise, plus the
mutually exclusive length adjustment 5/2/1), results with equal scores
keep their discovery order, and reordering the input never changes the
output provided no two distinct results share a score (with ties the
output follows the input order of the tied results). -/
theorem c3_priority_sort (l l' : List Result) (s : Nat) (hp : l.Perm l')
    (hnd : (l.map sort_key).Nodup) :
    (prioritize_results l).Sorted key_le ∧
    (prioritize_results l).Perm l ∧
    (prioritize_results l).filter (fun x => sort_key x = s) =
      l.filter (fun x => sort_key x = s) ∧
    prioritize_results l = prioritize_results l' :=
  ⟨prioritize_results_sorted l, prioritize_results_perm l,
   prioritize_results_stable l s, prioritize_results_deterministic l l' hp hnd⟩

/-- C3 witness: on a two-result set with distinct scores, both submission
orders sort to the same sequence, and the score-0 run of the output equals
that of the input. -/
theorem c3_priority_sort_witness :
    prioritize_results [⟨"w1", 200, 500, "x"⟩, ⟨"w2", 403, 500, "y"⟩] =
      prioritize_results [⟨"w2", 403, 500, "y"⟩, ⟨"w1", 200, 500, "x"⟩] ∧
    (prioritize_results [⟨"w1", 200, 500, "x"⟩, ⟨"w2", 403, 500, "y"⟩]).filter
      (fun x => sort_key x = 0) =
      [⟨"w1", 200, 500, "x"⟩, ⟨"w2", 403, 500, "y"⟩].filter
        (fun x => sort_key x = 0) := by
  have h := c3_priority_sort [⟨"w1", 200, 500, "x"⟩, ⟨"w2", 403, 500, "y"⟩]
    [⟨"w2", 403, 500, "y"⟩, ⟨"w1", 200, 500, "x"⟩] 0 (by decide) (by decide)
  exact ⟨h.2.2.2, h.2.2.1⟩

/-! ## Content-collapse machinery (C2) -/

theorem cache_get_none_iff (h : List Char) :
    ∀ (c : List (List Char × Result)),
      cache_get h c = none ↔ h ∉ c.map Prod.fst := by
  intro c
  induction c with
  | nil => simp [cache_get]
  | cons e rest ih =>
    obtain ⟨h', r⟩ := e
    rw [cache_get]
    by_cases hh : h' = h
    · subst hh
      rw [if_pos rfl]
      refine iff_of_false (fun hc => Option.noConfusion hc) (fun hn => ?_)
      exact hn (List.mem_cons_self _ _)
    · rw [if_neg hh, ih]
      constructor
      · intro hn hmem
        rcases List.mem_cons.mp hmem with hmem | hmem
        · exact hh hmem.symm
        · exact hn hmem
      · intro hn hmem
        exact hn (List.mem_cons_of_mem _ hmem)

theorem cache_get_some_mem (h : List Char) :
    ∀ (c : List (List Char × Result)) (r : Result),
      cache_get h c = some r → (h, r) ∈ c := by
  intro c
  induction c with
  | nil => intro r hr; cases hr
  | cons e rest ih =>
    obtain ⟨h', r'⟩ := e
    intro r hr
    rw [cache_get] at hr
    split at hr
    · next hh =>
      injection hr with hr
      rw [← hh, hr]
      exact List.mem_cons_self _ _
    · exact List.mem_cons_of_mem _ (ih r hr)

theorem cache_set_not_mem (h : List Char) (r : Result) :
    ∀ (c : List (List Char × Result)), h ∉ c.map Prod.fst →
      cache_set h r c = c ++ [(h, r)] := by
  intro c
  induction c with
  | nil => intro _; rfl
  | cons e rest ih =>
    obtain ⟨h', r'⟩ := e
    intro hmem
    have hne : ¬(h' = h) := by
      intro heq
      subst heq
      exact hmem (List.mem_cons_self _ _)
    rw [cache_set, if_neg hne, ih (fun hm => hmem (List.mem_cons_of_mem _ hm))]
    rfl

theorem mem_cache_set_keys (h k : List Char) (r : Result) :
    ∀ (c : List (List Char × Result)),
      k ∈ (cache_set h r c).map Prod.fst ↔ k = h ∨ k ∈ c.map Prod.fst := by
  intro c
  induction c with
  | nil => simp [cache_set]
  | cons e rest ih =>
    obtain ⟨h', r'⟩ := e
    rw [cache_set]
    by_cases hh : h' = h
    · subst hh
      rw [if_pos rfl]
      simp only [List.map_cons, List.mem_cons, ih]
      tauto
    · rw [if_neg hh]
      simp only [List.map_cons, List.mem_cons, ih]
      tauto

theorem cache_set_keys_nodup (h : List Char) (r : Result) :
    ∀ (c : List (List Char × Result)), (c.map Prod.fst).Nodup →
      ((cache_set h r c).map Prod.fst).Nodup := by
  intro c
  induction c with
  | nil => intro _; simp [cache_set]
  | cons e rest ih =>
    obtain ⟨h', r'⟩ := e
    intro hnd
    obtain ⟨h1, h2⟩ := List.nodup_cons.mp hnd
    by_cases hh : h' = h
    · rw [cache_set, if_pos hh]
      exact List.nodup_cons.mpr ⟨hh ▸ h1, h2⟩
    · rw [cache_set, if_neg hh]
      refine List.nodup_cons.mpr ⟨?_, ih h2⟩
      intro hmem
      rcases (mem_cache_set_keys h h' r rest).mp hmem with heq | hmem
      · exact hh heq
      · exact h1 hmem

theorem mem_cache_set_strong (h : List Char) (r : Result) :
    ∀ (c : List (List Char × Result)), (c.map Prod.fst).Nodup →
      ∀ e, e ∈ cache_set h r c ↔ (e = (h, r) ∨ (e ∈ c ∧ e.1 ≠ h)) := by
  intro c
  induction c with
  | nil =>
    intro _ e
    simp [cache_set]
  | cons e0 rest ih =>
    obtain ⟨h', v⟩ := e0
    intro hnd e
    obtain ⟨h1, h2⟩ := List.nodup_cons.mp hnd
    by_cases hh : h' = h
    · subst hh
      rw [cache_set, if_pos rfl]
      constructor
      · intro hmem
        rcases List.mem_cons.mp hmem with hmem | hmem
        · exact Or.inl hmem
        · refine Or.inr ⟨List.mem_cons_of_mem _ hmem, ?_⟩
          intro heq
          exact h1 (heq ▸ List.mem_map.mpr ⟨e, hmem, rfl⟩)
      · intro hmem
        rcases hmem with hmem | ⟨hmem, hne⟩
        · exact hmem ▸ List.mem_cons_self _ _
        · rcases List.mem_cons.mp hmem with hmem | hmem
          · exact absurd (by rw [hmem]) hne
          · exact List.mem_cons_of_mem _ hmem
    · rw [cache_set, if_neg hh]
      constructor
      · intro hmem
        rcases List.mem_cons.mp hmem with hmem | hmem
        · exact Or.inr ⟨hmem ▸ List.mem_cons_self _ _, by rw [hmem]; exact hh⟩
        · rcases (ih h2 e).mp hmem with he | ⟨he, hne⟩
          · exact Or.inl he
          · exact Or.inr ⟨List.mem_cons_of_mem _ he, hne⟩
      · intro hmem
        rcases hmem with hmem | ⟨hmem, hne⟩
        · exact hmem ▸ List.mem_cons_of_mem _ ((ih h2 _).mpr (Or.inl rfl))
        · rcases List.mem_cons.mp hmem with he | he
          · exact he ▸ List.mem_cons_self _ _
          · exact List.mem_cons_of_mem _ ((ih h2 e).mpr (Or.inr ⟨he, hne⟩))

theorem cache_entry_unique (h : List Char) (ex : Result) :
    ∀ (c : List (List Char × Result)), (c.map Prod.fst).Nodup →
      (h, ex) ∈ c → ∀ e ∈ c, e.1 = h → e = (h, ex) := by
  intro c
  induction c with
  | nil => intro _ hmem; cases hmem
  | cons e0 rest ih =>
    obtain ⟨h0, v0⟩ := e0
    intro hnd hmem e he hkey
    obtain ⟨h1, h2⟩ := List.nodup_cons.mp hnd
    rcases List.mem_cons.mp hmem with hm | hm
    · have hh0 : h = h0 := congrArg Prod.fst hm
      have hv0 : ex = v0 := congrArg Prod.snd hm
      rcases List.mem_cons.mp he with he0 | he0
      · rw [he0, ← hh0, ← hv0]
      · exfalso
        refine h1 ?_
        have hme : e.1 ∈ List.map Prod.fst rest := List.mem_map.mpr ⟨e, he0, rfl⟩
        rw [hkey, hh0] at hme
        exact hme
    · rcases List.mem_cons.mp he with he0 | he0
      · exfalso
        refine h1 ?_
        have hh : h0 = h := by rw [he0] at hkey; exact hkey
        have hme : h ∈ List.map Prod.fst rest := List.mem_map.mpr ⟨(h, ex), hm, rfl⟩
        rw [hh]
        exact hme
      · exact ih h2 hm e he0 hkey

theorem cache_set_values_iff (h : List Char) (r ex : Result)
    (hexh : content_hash ex.content = h) :
    ∀ (c : List (List Char × Result)), (c.map Prod.fst).Nodup →
      (∀ e ∈ c, content_hash e.2.content = e.1) →
      cache_get h c = some ex →
      ∀ x, x ∈ (cache_set h r c).map Prod.snd ↔
        (x = r ∨ (x ∈ c.map Prod.snd ∧ x ≠ ex)) := by
  intro c
  induction c with
  | nil => intro _ _ hget; cases hget
  | cons e0 rest ih =>
    obtain ⟨h0, v0⟩ := e0
    intro hnd hhash hget x
    obtain ⟨h1, h2⟩ := List.nodup_cons.mp hnd
    rw [cache_get] at hget
    by_cases hh : h0 = h
    · subst hh
      rw [if_pos rfl] at hget
      injection hget with hget
      subst hget
      rw [cache_set, if_pos rfl]
      simp only [List.map_cons, List.mem_cons]
      constructor
      · intro hx
        rcases hx with hx | hx
        · exact Or.inl hx
        · refine Or.inr ⟨Or.inr hx, fun hxe => ?_⟩
          subst hxe
          obtain ⟨e, hee, hse⟩ := List.mem_map.mp hx
          refine h1 ?_
          have hkey : e.1 = h0 := by
            rw [← hhash e (List.mem_cons_of_mem _ hee), hse, hexh]
          exact hkey ▸ List.mem_map.mpr ⟨e, hee, rfl⟩
      · intro hx
        rcases hx with hx | ⟨hx, hne⟩
        · exact Or.inl hx
        · rcases hx with hx | hx
          · exact absurd hx hne
          · exact Or.inr hx
    · rw [if_neg hh] at hget
      rw [cache_set, if_neg hh]
      simp only [List.map_cons, List.mem_cons]
      rw [ih h2 (fun e he => hhash e (List.mem_cons_of_mem _ he)) hget x]
      have hv0ex : v0 ≠ ex := by
        intro hve
        refine hh ?_
        have hk : content_hash v0.content = h0 :=
          hhash (h0, v0) (List.mem_cons_self _ _)
        rw [← hk, hve, hexh]
      constructor
      · intro hx
        rcases hx with hx | hx | ⟨hx, hne⟩
        · subst hx
          exact Or.inr ⟨Or.inl rfl, hv0ex⟩
        · exact Or.inl hx
        · exact Or.inr ⟨Or.inr hx, hne⟩
      · intro hx
        rcases hx with hx | ⟨hx | hx, hne⟩
        · exact Or.inr (Or.inl hx)
        · exact Or.inl hx
        · exact Or.inr (Or.inr ⟨hx, hne⟩)

theorem replace_by_url_mem_iff (ex nr : Result) :
    ∀ (l : List Result), (l.map Result.url).Nodup → ex ∈ l →
      nr.url ∉ l.map Result.url →
      ∀ x, x ∈ replace_by_url ex.url nr l ↔ (x = nr ∨ (x ∈ l ∧ x ≠ ex)) := by
  intro l
  induction l with
  | nil => intro _ hex; cases hex
  | cons r rs ih =>
    intro hnd hex hnr x
    obtain ⟨h1, h2⟩ := List.nodup_cons.mp hnd
    rw [replace_by_url]
    by_cases hru : r.url = ex.url
    · have hrex : r = ex := by
        rcases List.mem_cons.mp hex with h | h
        · exact h.symm
        · exfalso
          refine h1 ?_
          rw [hru]
          exact List.mem_map.mpr ⟨ex, h, rfl⟩
      rw [if_pos hru]
      subst hrex
      constructor
      · intro hx
        rcases List.mem_cons.mp hx with h | h
        · exact Or.inl h
        · refine Or.inr ⟨List.mem_cons_of_mem _ h, fun hxe => ?_⟩
          subst hxe
          exact h1 (List.mem_map.mpr ⟨x, h, rfl⟩)
      · intro hx
        rcases hx with h | ⟨hmem, hne⟩
        · exact h ▸ List.mem_cons_self _ _
        · rcases List.mem_cons.mp hmem with h | h
          · exact absurd h hne
          · exact List.mem_cons_of_mem _ h
    · have hexrs : ex ∈ rs := by
        rcases List.mem_cons.mp hex with h | h
        · exact absurd (by rw [h]) hru
        · exact h
      rw [if_neg hru, List.mem_cons,
        ih h2 hexrs (fun hm => hnr (List.mem_cons_of_mem _ hm)) x]
      constructor
      · rintro (h | h | ⟨hm, hne⟩)
        · subst h
          exact Or.inr ⟨List.mem_cons_self _ _, fun he => hru (by rw [he])⟩
        · exact Or.inl h
        · exact Or.inr ⟨List.mem_cons_of_mem _ hm, hne⟩
      · rintro (h | ⟨hm, hne⟩)
        · exact Or.inr (Or.inl h)
        · rcases List.mem_cons.mp hm with h | h
          · exact Or.inl h
          · exact Or.inr (Or.inr ⟨h, hne⟩)

theorem replace_by_url_urls_sub (u0 : String) (nr : Result) :
    ∀ (l : List Result) (y : String),
      y ∈ (replace_by_url u0 nr l).map Result.url →
      y ∈ l.map Result.url ∨ y = nr.url := by
  intro l
  induction l with
  | nil => intro y hy; cases hy
  | cons r rs ih =>
    intro y hy
    rw [replace_by_url] at hy
    split at hy
    · rcases List.mem_cons.mp hy with h | h
      · exact Or.inr h
      · exact Or.inl (List.mem_cons_of_mem _ h)
    · rcases List.mem_cons.mp hy with h | h
      · exact Or.inl (h ▸ List.mem_cons_self _ _)
      · rcases ih y h with h' | h'
        · exact Or.inl (List.mem_cons_of_mem _ h')
        · exact Or.inr h'

theorem replace_by_url_urls_nodup (u0 : String) (nr : Result) :
    ∀ (l : List Result), (l.map Result.url).Nodup →
      nr.url ∉ l.map Result.url →
      ((replace_by_url u0 nr l).map Result.url).Nodup := by
  intro l
  induction l with
  | nil => intro _ _; exact List.nodup_nil
  | cons r rs ih =>
    intro hnd hnr
    obtain ⟨h1, h2⟩ := List.nodup_cons.mp hnd
    rw [replace_by_url]
    split
    · refine List.nodup_cons.mpr ⟨?_, h2⟩
      intro hmem
      exact hnr (List.mem_cons_of_mem _ hmem)
    · refine List.nodup_cons.mpr
        ⟨?_, ih h2 (fun hm => hnr (List.mem_cons_of_mem _ hm))⟩
      intro hmem
      rcases replace_by_url_urls_sub u0 nr rs r.url hmem with h | h
      · exact h1 h
      · exact hnr (h ▸ List.mem_cons_self _ _)

theorem is_better_beats (n e : Result) (h : is_better_result n e = true) :
    beats n e := by
  rw [is_better_result] at h
  split_ifs at h with h1 h2
  · exact Or.inl h1
  · have hlt : n.status_code < e.status_code := of_decide_eq_true h
    by_cases hn : n.status_code = 200
    · by_cases he : e.status_code = 200
      · rw [hn, he] at hlt
        exact absurd hlt (lt_irrefl _)
      · exact absurd ⟨hn, he⟩ h1
    · by_cases he : e.status_code = 200
      · exact absurd ⟨he, hn⟩ h2
      · exact Or.inr ⟨hn, he, hlt⟩

theorem is_better_false_beats (n e : Result) (hne : n.status_code ≠ e.status_code)
    (h : is_better_result n e = false) : beats e n := by
  rw [is_better_result] at h
  split_ifs at h with h1 h2
  · exact Or.inl ⟨h2.1, h2.2⟩
  · have hge : ¬(n.status_code < e.status_code) := of_decide_eq_false h
    have hlt : e.status_code < n.status_code :=
      Nat.lt_of_le_of_ne (Nat.le_of_not_lt hge) (fun heq => hne heq.symm)
    by_cases he : e.status_code = 200
    · by_cases hn : n.status_code = 200
      · exact absurd (hn.trans he.symm) hne
      · exact absurd ⟨he, hn⟩ h2
    · by_cases hn : n.status_code = 200
      · exact absurd ⟨hn, he⟩ h1
      · exact Or.inr ⟨he, hn, hlt⟩

theorem beats_asymm (a b : Result) (h : beats a b) : ¬beats b a := by
  rw [beats] at *
  omega

theorem beats_trans (a b c : Result) (h1 : beats a b) (h2 : beats b c) :
    beats a c := by
  rw [beats] at *
  omega

theorem remove_similar_aux_cons_none (r : Result) (rs : List Result)
    (cache : List (List Char × Result)) (unique : List Result)
    (hget : cache_get (content_hash r.content) cache = none) :
    remove_similar_aux (r :: rs) (cache, unique) =
      remove_similar_aux rs
        (cache_set (content_hash r.content) r cache, unique ++ [r]) := by
  rw [remove_similar_aux]
  rw [hget]

theorem remove_similar_aux_cons_better (r : Result) (rs : List Result)
    (cache : List (List Char × Result)) (unique : List Result) (ex : Result)
    (hget : cache_get (content_hash r.content) cache = some ex)
    (hb : is_better_result r ex = true) :
    remove_similar_aux (r :: rs) (cache, unique) =
      remove_similar_aux rs
        (cache_set (content_hash r.content) r cache,
          replace_by_url ex.url r unique) := by
  rw [remove_similar_aux]
  rw [hget]
  dsimp only
  rw [if_pos hb]

theorem remove_similar_aux_cons_worse (r : Result) (rs : List Result)
    (cache : List (List Char × Result)) (unique : List Result) (ex : Result)
    (hget : cache_get (content_hash r.content) cache = some ex)
    (hb : is_better_result r ex = false) :
    remove_similar_aux (r :: rs) (cache, unique) =
      remove_similar_aux rs (cache, unique) := by
  rw [remove_similar_aux]
  rw [hget]
  dsimp only
  rw [if_neg (by rw [hb]; exact Bool.false_ne_true)]

theorem remove_similar_aux_inv :
    ∀ (rest p : List Result) (cache : List (List Char × Result))
      (unique : List Result),
      DistinctUrls (p ++ rest) → NoClassTies (p ++ rest) →
      SimInv p cache unique →
      SimInv (p ++ rest) (remove_similar_aux rest (cache, unique)).1
        (remove_similar_aux rest (cache, unique)).2 := by
  intro rest
  induction rest with
  | nil =>
    intro p cache unique hu ht hinv
    rw [remove_similar_aux]
    simpa using hinv
  | cons r rs ih =>
    intro p cache unique hu ht hinv
    have hassoc : p ++ r :: rs = (p ++ [r]) ++ rs := by simp
    have hurls : ((p ++ r :: rs).map Result.url).Nodup := hu
    have hrup : r.url ∉ p.map Result.url := by
      rw [List.map_append] at hurls
      have hd := (List.nodup_append.mp hurls).2.2
      intro hmem
      exact hd hmem (List.mem_cons_self _ _)
    have hrp : r ∉ p := fun hmem => hrup (List.mem_map.mpr ⟨r, hmem, rfl⟩)
    have huniq_sub : ∀ x ∈ unique, x ∈ p := by
      intro x hx
      obtain ⟨e, he, hse⟩ := List.mem_map.mp ((hinv.uniq_iff x).mp hx)
      exact hse ▸ hinv.val_mem e he
    have hrunotu : r.url ∉ unique.map Result.url := by
      intro hmem
      obtain ⟨x, hx, hxe⟩ := List.mem_map.mp hmem
      exact hrup (hxe ▸ List.mem_map.mpr ⟨x, huniq_sub x hx, rfl⟩)
    rcases hget : cache_get (content_hash r.content) cache with _ | ex
    · -- first member of its class
      have hkeys : content_hash r.content ∉ cache.map Prod.fst :=
        (cache_get_none_iff _ cache).mp hget
      have hnoclass : ∀ x ∈ p, ¬(content_hash x.content = content_hash r.content) := by
        intro x hx heq
        obtain ⟨e, he, hke⟩ := hinv.cover x hx
        refine hkeys ?_
        rw [← heq, ← hke]
        exact List.mem_map.mpr ⟨e, he, rfl⟩
      have hset : cache_set (content_hash r.content) r cache =
          cache ++ [(content_hash r.content, r)] :=
        cache_set_not_mem _ _ cache hkeys
      rw [remove_similar_aux_cons_none r rs cache unique hget, hassoc, hset]
      refine ih (p ++ [r]) _ _ (hassoc ▸ hu) (hassoc ▸ ht) ?_
      refine ⟨?_, ?_, ?_, ?_, ?_, ?_, ?_⟩
      · rw [List.map_append]
        refine List.nodup_append.mpr ⟨hinv.keys_nodup, List.nodup_singleton _, ?_⟩
        intro a ha hb
        rcases List.mem_singleton.mp hb with rfl
        exact hkeys ha
      · intro e he
        rcases List.mem_append.mp he with he | he
        · exact hinv.hash_eq e he
        · rcases List.mem_singleton.mp he with rfl
          rfl
      · intro e he
        rcases List.mem_append.mp he with he | he
        · exact List.mem_append_left _ (hinv.val_mem e he)
        · rcases List.mem_singleton.mp he with rfl
          exact List.mem_append_right _ (List.mem_singleton.mpr rfl)
      · intro e he r' hr' hhr' hner'
        rcases List.mem_append.mp he with he | he
        · rcases List.mem_append.mp hr' with hr' | hr'
          · exact hinv.best e he r' hr' hhr' hner'
          · have hreq := (List.mem_singleton.mp hr').symm; subst hreq
            exfalso
            refine hkeys ?_
            rw [hhr']
            exact List.mem_map.mpr ⟨e, he, rfl⟩
        · rcases List.mem_singleton.mp he with rfl
          rcases List.mem_append.mp hr' with hr' | hr'
          · exact absurd hhr' (hnoclass r' hr')
          · have hreq := (List.mem_singleton.mp hr').symm; subst hreq
            exact absurd rfl hner'
      · intro r' hr'
        rcases List.mem_append.mp hr' with hr' | hr'
        · obtain ⟨e, he, hke⟩ := hinv.cover r' hr'
          exact ⟨e, List.mem_append_left _ he, hke⟩
        · have hreq := (List.mem_singleton.mp hr').symm; subst hreq
          exact ⟨(content_hash r.content, r),
            List.mem_append_right _ (List.mem_singleton.mpr rfl), rfl⟩
      · intro x
        constructor
        · intro hx
          rcases List.mem_append.mp hx with hx | hx
          · obtain ⟨e, he, hse⟩ := List.mem_map.mp ((hinv.uniq_iff x).mp hx)
            exact List.mem_map.mpr ⟨e, List.mem_append_left _ he, hse⟩
          · have hreq := (List.mem_singleton.mp hx).symm; subst hreq
            exact List.mem_map.mpr ⟨(content_hash r.content, r),
              List.mem_append_right _ (List.mem_singleton.mpr rfl), rfl⟩
        · intro hx
          obtain ⟨e, he, hse⟩ := List.mem_map.mp hx
          rcases List.mem_append.mp he with he | he
          · exact List.mem_append_left _
              ((hinv.uniq_iff x).mpr (List.mem_map.mpr ⟨e, he, hse⟩))
          · rcases List.mem_singleton.mp he with rfl
            exact List.mem_append_right _ (List.mem_singleton.mpr hse.symm)
      · rw [List.map_append]
        refine List.nodup_append.mpr ⟨hinv.uniq_urls, List.nodup_singleton _, ?_⟩
        intro a ha hb
        rcases List.mem_singleton.mp hb with rfl
        exact hrunotu ha
    · -- class already cached
      have hmem_ex : (content_hash r.content, ex) ∈ cache :=
        cache_get_some_mem _ cache ex hget
      have hhash_ex : content_hash ex.content = content_hash r.content :=
        hinv.hash_eq _ hmem_ex
      have hex_p : ex ∈ p := hinv.val_mem _ hmem_ex
      have hex_u : ex ∈ unique :=
        (hinv.uniq_iff ex).mpr (List.mem_map.mpr ⟨_, hmem_ex, rfl⟩)
      have hrneex : r ≠ ex := fun he => hrp (he ▸ hex_p)
      rcases hb : is_better_result r ex with _ | _
      · -- the cached result wins; state unchanged
        have hne_status : r.status_code ≠ ex.status_code := by
          intro hst
          refine hrneex (ht r ?_ ex ?_ hhash_ex.symm.symm.symm ?_)
          · exact List.mem_append_right _ (List.mem_cons_self _ _)
          · exact List.mem_append_left _ hex_p
          · exact hst
        have hbeats_ex_r : beats ex r := is_better_false_beats r ex hne_status hb
        rw [remove_similar_aux_cons_worse r rs cache unique ex hget hb, hassoc]
        refine ih (p ++ [r]) _ _ (hassoc ▸ hu) (hassoc ▸ ht) ?_
        refine ⟨hinv.keys_nodup, hinv.hash_eq, ?_, ?_, ?_, hinv.uniq_iff,
          hinv.uniq_urls⟩
        · intro e he
          exact List.mem_append_left _ (hinv.val_mem e he)
        · intro e he r' hr' hhr' hner'
          rcases List.mem_append.mp hr' with hr' | hr'
          · exact hinv.best e he r' hr' hhr' hner'
          · have hreq := (List.mem_singleton.mp hr').symm; subst hreq
            have he_eq : e = (content_hash r.content, ex) :=
              cache_entry_unique _ ex cache hinv.keys_nodup hmem_ex e he hhr'.symm
            rw [he_eq]
            exact hbeats_ex_r
        · intro r' hr'
          rcases List.mem_append.mp hr' with hr' | hr'
          · exact hinv.cover r' hr'
          · have hreq := (List.mem_singleton.mp hr').symm; subst hreq
            exact ⟨(content_hash r.content, ex), hmem_ex, rfl⟩
      · -- the new result evicts the cached one
        have hbeats : beats r ex := is_better_beats r ex hb
        rw [remove_similar_aux_cons_better r rs cache unique ex hget hb, hassoc]
        refine ih (p ++ [r]) _ _ (hassoc ▸ hu) (hassoc ▸ ht) ?_
        refine ⟨?_, ?_, ?_, ?_, ?_, ?_, ?_⟩
        · exact cache_set_keys_nodup _ r cache hinv.keys_nodup
        · intro e he
          rcases (mem_cache_set_strong _ r cache hinv.keys_nodup e).mp he with
            he | ⟨he, _⟩
          · rw [he]
          · exact hinv.hash_eq e he
        · intro e he
          rcases (mem_cache_set_strong _ r cache hinv.keys_nodup e).mp he with
            he | ⟨he, _⟩
          · rw [he]
            exact List.mem_append_right _ (List.mem_singleton.mpr rfl)
          · exact List.mem_append_left _ (hinv.val_mem e he)
        · intro e he r' hr' hhr' hner'
          rcases (mem_cache_set_strong _ r cache hinv.keys_nodup e).mp he with
            he | ⟨he, hke⟩
          · subst he
            rcases List.mem_append.mp hr' with hr' | hr'
            · by_cases hrex : r' = ex
              · rw [hrex]
                exact hbeats
              · exact beats_trans r ex r' hbeats
                  (hinv.best _ hmem_ex r' hr' hhr' hrex)
            · have hreq := (List.mem_singleton.mp hr').symm; subst hreq
              exact absurd rfl hner'
          · rcases List.mem_append.mp hr' with hr' | hr'
            · exact hinv.best e he r' hr' hhr' hner'
            · have hreq := (List.mem_singleton.mp hr').symm; subst hreq
              exact absurd hhr'.symm hke
        · intro r' hr'
          rcases List.mem_append.mp hr' with hr' | hr'
          · obtain ⟨e, he, hke⟩ := hinv.cover r' hr'
            by_cases hkeq : e.1 = content_hash r.content
            · refine ⟨(content_hash r.content, r),
                (mem_cache_set_strong _ r cache hinv.keys_nodup _).mpr
                  (Or.inl rfl), ?_⟩
              rw [← hke]
              exact hkeq.symm
            · exact ⟨e, (mem_cache_set_strong _ r cache hinv.keys_nodup e).mpr
                (Or.inr ⟨he, hkeq⟩), hke⟩
          · have hreq := (List.mem_singleton.mp hr').symm; subst hreq
            exact ⟨(content_hash r.content, r),
              (mem_cache_set_strong _ r cache hinv.keys_nodup _).mpr
                (Or.inl rfl), rfl⟩
        · intro x
          rw [replace_by_url_mem_iff ex r unique hinv.uniq_urls hex_u hrunotu x,
            cache_set_values_iff _ r ex hhash_ex cache hinv.keys_nodup
              hinv.hash_eq hget x]
          constructor
          · rintro (hx | ⟨hx, hne⟩)
            · exact Or.inl hx
            · exact Or.inr ⟨(hinv.uniq_iff x).mp hx, hne⟩
          · rintro (hx | ⟨hx, hne⟩)
            · exact Or.inl hx
            · exact Or.inr ⟨(hinv.uniq_iff x).mpr hx, hne⟩
        · exact replace_by_url_urls_nodup ex.url r unique hinv.uniq_urls hrunotu

theorem remove_similar_siminv (l : List Result) (hu : DistinctUrls l)
    (ht : NoClassTies l) :
    SimInv l (remove_similar_aux l ([], [])).1 (remove_similar_aux l ([], [])).2 := by
  have hinv0 : SimInv [] [] [] :=
    ⟨List.nodup_nil,
     fun e he => absurd he (List.not_mem_nil e),
     fun e he => absurd he (List.not_mem_nil e),
     fun e he => absurd he (List.not_mem_nil e),
     fun r' hr' => absurd hr' (List.not_mem_nil r'),
     fun _ => Iff.rfl,
     List.nodup_nil⟩
  exact remove_similar_aux_inv l [] [] [] hu ht hinv0

theorem remove_similar_mem (l : List Result) (hu : DistinctUrls l)
    (ht : NoClassTies l) (r : Result) :
    r ∈ remove_similar_responses l ↔ (r ∈ l ∧ IsBest l r) := by
  have hinv := remove_similar_siminv l hu ht
  constructor
  · intro hr
    rw [remove_similar_responses] at hr
    obtain ⟨e, he, hse⟩ := List.mem_map.mp ((hinv.uniq_iff r).mp hr)
    have hkey : content_hash e.2.content = e.1 := hinv.hash_eq e he
    subst hse
    refine ⟨hinv.val_mem e he, ?_⟩
    intro r' hr' hhash hner
    exact hinv.best e he r' hr' (hhash.trans hkey) hner
  · rintro ⟨hrl, hbest⟩
    obtain ⟨e, he, hke⟩ := hinv.cover r hrl
    have hkey : content_hash e.2.content = e.1 := hinv.hash_eq e he
    by_cases hv : e.2 = r
    · rw [remove_similar_responses]
      exact (hinv.uniq_iff r).mpr (List.mem_map.mpr ⟨e, he, hv⟩)
    · exfalso
      have h1 : beats e.2 r :=
        hinv.best e he r hrl hke.symm (fun h => hv h.symm)
      have h2 : beats r e.2 :=
        hbest e.2 (hinv.val_mem e he) (hkey.trans hke) hv
      exact beats_asymm _ _ h1 h2

theorem remove_similar_cover (l : List Result) (hu : DistinctUrls l)
    (ht : NoClassTies l) (r : Result) (hr : r ∈ l) :
    ∃ r' ∈ remove_similar_responses l,
      content_hash r'.content = content_hash r.content := by
  have hinv := remove_similar_siminv l hu ht
  obtain ⟨e, he, hke⟩ := hinv.cover r hr
  refine ⟨e.2, ?_, (hinv.hash_eq e he).trans hke⟩
  rw [remove_similar_responses]
  exact (hinv.uniq_iff e.2).mpr (List.mem_map.mpr ⟨e, he, rfl⟩)

/-- C2 counterexample: the claim fails on the code in two ways.  First,
on two same-class results with equal status (a tie), the two submission
orders retain different representatives, contradicting "it is the same
result in both orders".  Second, when the evicted result's URL is shared
with a result of a different class, the replace-by-url step overwrites the
wrong entry: the class of body `B` ends with two representatives in the
output while the class of body `A` loses its only one, contradicting
"each content-equivalence class retains exactly one representative". -/
theorem c2_content_collapse_counterexample :
    (remove_similar_responses [⟨"a", 404, 3, "X"⟩, ⟨"b", 404, 3, "X"⟩] =
        [⟨"a", 404, 3, "X"⟩] ∧
      remove_similar_responses [⟨"b", 404, 3, "X"⟩, ⟨"a", 404, 3, "X"⟩] =
        [⟨"b", 404, 3, "X"⟩] ∧
      (⟨"a", 404, 3, "X"⟩ : Result) ≠ ⟨"b", 404, 3, "X"⟩) ∧
    (remove_similar_responses
        [⟨"u", 404, 1, "A"⟩, ⟨"u", 403, 1, "B"⟩, ⟨"w", 200, 1, "B"⟩] =
        [⟨"w", 200, 1, "B"⟩, ⟨"u", 403, 1, "B"⟩] ∧
      (⟨"u", 403, 1, "B"⟩ : Result) ≠ ⟨"w", 200, 1, "B"⟩ ∧
      content_hash "B" ≠ content_hash "A") := by
  decide

/-- C2 amended: provided all URLs in the batch are pairwise distinct and no
two distinct same-class results share a status code, the content collapse
retains exactly one representative per content-equivalence class — the
member that beats all others under the order "200 beats any non-200,
lower non-200 status wins" — and that representative is the same for any
two submission orders.  With equal-status ties the earlier-seen result is
kept, which depends on submission order, and a shared URL can make the
eviction step overwrite a representative of a different class. -/
theorem c2_content_collapse (l l' : List Result) (hp : l.Perm l')
    (hu : DistinctUrls l) (ht : NoClassTies l) (r r1 r2 : Result) :
    (r ∈ remove_similar_responses l ↔ (r ∈ l ∧ IsBest l r)) ∧
    (r ∈ remove_similar_responses l ↔ r ∈ remove_similar_responses l') ∧
    (r1 ∈ remove_similar_responses l → r2 ∈ remove_similar_responses l →
      content_hash r1.content = content_hash r2.content → r1 = r2) ∧
    (r ∈ l → ∃ r' ∈ remove_similar_responses l,
      content_hash r'.content = content_hash r.content) := by
  have hu' : DistinctUrls l' := (hp.map Result.url).nodup_iff.mp hu
  have ht' : NoClassTies l' := by
    intro a ha b hb hh hs
    exact ht a (hp.mem_iff.mpr ha) b (hp.mem_iff.mpr hb) hh hs
  refine ⟨remove_similar_mem l hu ht r, ?_, ?_, remove_similar_cover l hu ht r⟩
  · rw [remove_similar_mem l hu ht r, remove_similar_mem l' hu' ht' r]
    constructor
    · rintro ⟨h1, h2⟩
      exact ⟨hp.mem_iff.mp h1, fun a ha hh hne => h2 a (hp.mem_iff.mpr ha) hh hne⟩
    · rintro ⟨h1, h2⟩
      exact ⟨hp.mem_iff.mpr h1, fun a ha hh hne => h2 a (hp.mem_iff.mp ha) hh hne⟩
  · intro h1 h2 hh
    rw [remove_similar_mem l hu ht r1] at h1
    rw [remove_similar_mem l hu ht r2] at h2
    by_cases he : r1 = r2
    · exact he
    · exfalso
      have hb1 : beats r1 r2 := h1.2 r2 h2.1 hh.symm (fun h => he h.symm)
      have hb2 : beats r2 r1 := h2.2 r1 h1.1 hh he
      exact beats_asymm _ _ hb1 hb2

/-- C2 witness: on a two-result class with distinct statuses 403 and 200
and distinct URLs, both submission orders retain the 200 representative
(Scenario D). -/
theorem c2_content_collapse_witness :
    ((⟨"w", 200, 1, "B"⟩ : Result) ∈
        remove_similar_responses [⟨"u", 403, 1, "B"⟩, ⟨"w", 200, 1, "B"⟩] ↔
      (⟨"w", 200, 1, "B"⟩ : Result) ∈
        remove_similar_responses [⟨"w", 200, 1, "B"⟩, ⟨"u", 403, 1, "B"⟩]) ∧
    (⟨"w", 200, 1, "B"⟩ : Result) ∈
      remove_similar_responses [⟨"u", 403, 1, "B"⟩, ⟨"w", 200, 1, "B"⟩] := by
  have h := c2_content_collapse
    [⟨"u", 403, 1, "B"⟩, ⟨"w", 200, 1, "B"⟩]
    [⟨"w", 200, 1, "B"⟩, ⟨"u", 403, 1, "B"⟩]
    (by decide) (by decide) (by decide)
    ⟨"w", 200, 1, "B"⟩ ⟨"w", 200, 1, "B"⟩ ⟨"w", 200, 1, "B"⟩
  refine ⟨h.2.1, ?_⟩
  refine (h.1).mpr ⟨by decide, ?_⟩
  intro a ha hh hne
  have : beats (⟨"w", 200, 1, "B"⟩ : Result) ⟨"u", 403, 1, "B"⟩ := by decide
  rcases List.mem_cons.mp ha with hb | hb
  · rw [hb]
    exact this
  · rcases List.mem_singleton.mp hb with hb
    rw [hb] at hne
    exact absurd rfl hne
